import Mathlib

/-!
Series / parallel composition of solar panels (`panels.cpp`)

A shallow embedding of the source model of `panels.cpp` and the properties of
its aggregation rules.

Numbers.  The program computes in `float`, with `double` accumulators inside
`std::accumulate` (the seeds `0.0` and `1e6` are `double` literals, the lambdas
take and return `float`).  The development has two layers.

The first layer (`source`, `source.current`, `source.voltage`, `power`) evaluates in exact
arithmetic: every value is a rational number and `+`, `*` are exact.  Both seeds, `0` and
`1000000`, are exactly representable in either width.

The second layer (`F32`, `round32`, `source32`, `source32.current`, `source32.voltage`,
`power32`) evaluates in the arithmetic of the program: IEEE 754 binary32 with
round-to-nearest-even, overflow to the infinities, and NaN.  The properties of the sums and
of the products, where rounding and overflow decide, are stated on this layer.

Sharing.  A composite stores `const source*` pointers and the same object may be
referenced several times.  Evaluation only reads through the pointers, so a shared
child behaves as a repeated sub-tree; a composite is embedded as the list of its
children, in the order of its `std::vector`.
-/

namespace Panels

/-- The three implementations of `struct source`: `panel` (stored ratings `c`, `v`),
`parallel` and `serial` (both hold the vector `sources`). -/
inductive source where
  | panel (c v : ℚ) : source
  | parallel (sources : List source) : source
  | serial (sources : List source) : source

/-- The function `std::min(a, b)`: returns `b` when `b < a`, otherwise `a`. -/
def std_min (a b : ℚ) : ℚ := if b < a then b else a

/-- The algorithm `std::accumulate(first, last, init, op)`: a left-to-right loop
`acc = op(acc, *it)` starting from `init`. -/
def accumulate {α β : Type} : List α → β → (β → α → β) → β
  | [], init, _ => init
  | x :: rest, init, op => accumulate rest (op init x) op

mutual
/-- The virtual method `current()`.
`panel`: `return c;`
`parallel`: `std::accumulate(sources.begin(), sources.end(), 0.0, sum)`
`serial`: `std::accumulate(sources.begin(), sources.end(), 1e6, min)` -/
def source.current : source → ℚ
  | .panel c _ => c
  | .parallel sources => parallel_current_acc sources 0
  | .serial sources => serial_current_acc sources 1000000
/-- The virtual method `voltage()`.
`panel`: `return v;`
`parallel`: `std::accumulate(sources.begin(), sources.end(), 1e6, min)`
`serial`: `std::accumulate(sources.begin(), sources.end(), 0.0, sum)` -/
def source.voltage : source → ℚ
  | .panel _ v => v
  | .parallel sources => parallel_voltage_acc sources 1000000
  | .serial sources => serial_voltage_acc sources 0
/-- The accumulate loop of `parallel::current` with its lambda
`sum = [](float v, const source* s){return v + s->current();}`. -/
def parallel_current_acc : List source → ℚ → ℚ
  | [], v => v
  | s :: rest, v => parallel_current_acc rest (v + s.current)
/-- The accumulate loop of `parallel::voltage` with its lambda
`min = [](float v, const source* s){return std::min(v, s->voltage());}`. -/
def parallel_voltage_acc : List source → ℚ → ℚ
  | [], v => v
  | s :: rest, v => parallel_voltage_acc rest (std_min v s.voltage)
/-- The accumulate loop of `serial::voltage` with its lambda
`sum = [](float v, const source* s){return v + s->voltage();}`. -/
def serial_voltage_acc : List source → ℚ → ℚ
  | [], v => v
  | s :: rest, v => serial_voltage_acc rest (v + s.voltage)
/-- The accumulate loop of `serial::current` with its lambda
`min = [](float v, const source* s){return std::min(v, s->current());}`. -/
def serial_current_acc : List source → ℚ → ℚ
  | [], v => v
  | s :: rest, v => serial_current_acc rest (std_min v s.current)
end

/-- The free function `power`: `return s.current() * s.voltage();`. -/
def power (s : source) : ℚ := s.current * s.voltage

/-- The panel `kc50t(3.11, 17.4)` of `main`. -/
def kc50t : source := .panel 3.11 17.4

/-- The composite `_4s_kc50t({&kc50t, &kc50t, &kc50t, &kc50t})` of `main`. -/
def _4s_kc50t : source := .serial [kc50t, kc50t, kc50t, kc50t]

/-- The panel `sun100(5.44, 18.4)` of `main`. -/
def sun100 : source := .panel 5.44 18.4

/-- The composite `_2p_kc50t({&kc50t, &kc50t})` of `main`. -/
def _2p_kc50t : source := .parallel [kc50t, kc50t]

/-- The composite `_2s_1_sun100_2p_kc50t({&sun100, &_2p_kc50t})` of `main`. -/
def _2s_1_sun100_2p_kc50t : source := .serial [sun100, _2p_kc50t]

/-- The composite
`_2s_2s_1_sun100_2p_kc50t({&_2s_1_sun100_2p_kc50t, &_2s_1_sun100_2p_kc50t})` of `main`. -/
def _2s_2s_1_sun100_2p_kc50t : source :=
  .serial [_2s_1_sun100_2p_kc50t, _2s_1_sun100_2p_kc50t]

/-! Evaluation with a bounded call depth.  `current()` of a composite calls `current()` of
each child, and likewise `voltage()`; the functions below run the same code with a budget on
the depth of nested calls and return `none` when the budget is exhausted. -/

/-- The loop of `std::accumulate` when the call of `op` may not return. -/
def accumulate_within {α β : Type} : List α → β → (β → α → Option β) → Option β
  | [], init, _ => some init
  | x :: rest, init, op =>
    match op init x with
    | none => none
    | some acc => accumulate_within rest acc op

/-- The method `current()` run with at most `n` nested calls. -/
def current_within : Nat → source → Option ℚ
  | 0, _ => none
  | _ + 1, .panel c _ => some c
  | n + 1, .parallel sources =>
    accumulate_within sources 0 (fun v s => (current_within n s).map (fun c => v + c))
  | n + 1, .serial sources =>
    accumulate_within sources 1000000 (fun v s => (current_within n s).map (fun c => std_min v c))

/-- The method `voltage()` run with at most `n` nested calls. -/
def voltage_within : Nat → source → Option ℚ
  | 0, _ => none
  | _ + 1, .panel _ v => some v
  | n + 1, .parallel sources =>
    accumulate_within sources 1000000 (fun v s => (voltage_within n s).map (fun w => std_min v w))
  | n + 1, .serial sources =>
    accumulate_within sources 0 (fun v s => (voltage_within n s).map (fun w => v + w))

/-- The function `power` run with at most `n` nested calls below it:
`s.current() * s.voltage()`. -/
def power_within (n : Nat) (s : source) : Option ℚ :=
  match current_within n s, voltage_within n s with
  | some c, some v => some (c * v)
  | _, _ => none

/-! Notions used to state the properties: nesting depth and the dual tree. -/

mutual
/-- The nesting depth of a source tree: 1 for a panel, one more than the deepest child for a
composite. -/
def source.depth : source → Nat
  | .panel _ _ => 1
  | .parallel sources => depth_list sources + 1
  | .serial sources => depth_list sources + 1
/-- The largest nesting depth among the sources of a list, 0 for the empty list. -/
def depth_list : List source → Nat
  | [] => 0
  | s :: rest => max s.depth (depth_list rest)
end

mutual
/-- The dual tree: every `panel(c, v)` becomes `panel(v, c)`, every parallel composite a
series composite and every series composite a parallel composite, children dualised in
order. -/
def source.dual : source → source
  | .panel c v => .panel v c
  | .parallel sources => .serial (dual_list sources)
  | .serial sources => .parallel (dual_list sources)
/-- The duals of the trees of a list, in order. -/
def dual_list : List source → List source
  | [] => []
  | s :: rest => s.dual :: dual_list rest
end

/-! The arithmetic of the program.  `float` is IEEE 754 binary32 with round-to-nearest-even.
A binary32 value is a finite rational, an infinity or NaN; the two signed zeros compare equal
and are one value `fin 0` here.  The `double` accumulator of `std::accumulate` only ever holds
a seed (`0.0`, `1e6`) or a value returned by the `float` lambda, so the conversions between the
two widths are exact and the loops below run on binary32 values throughout. -/

/-- A value of type `float`. -/
inductive F32 where
  | fin (q : ℚ) : F32
  | pinf : F32
  | ninf : F32
  | nan : F32
  deriving DecidableEq

/-- Search downwards from `e` for the largest exponent with `2 ^ e ≤ a`, giving up after `k`
steps. -/
def binade_search : Nat → ℤ → ℚ → ℤ
  | 0, e, _ => e
  | k + 1, e, a => if (2 : ℚ) ^ e ≤ a then e else binade_search k (e - 1) a

/-- The exponent of the binade of `a ≥ 0` in binary32: the largest `e` in `[-126, 127]` with
`2 ^ e ≤ a`, and `-126` (the subnormal range) when there is none. -/
def binade (a : ℚ) : ℤ := binade_search 253 127 a

/-- Rounding to the nearest integer, ties to the even one. -/
def round_half_even (y : ℚ) : ℤ :=
  if y - ⌊y⌋ < 1 / 2 then ⌊y⌋
  else if 1 / 2 < y - ⌊y⌋ then ⌊y⌋ + 1
  else if ⌊y⌋ % 2 = 0 then ⌊y⌋ else ⌊y⌋ + 1

/-- Rounding of a real result to binary32, to nearest with ties to even: the result is the
nearest multiple of the unit in the last place `2 ^ (binade - 23)` (24 significant bits), and
an infinity when that multiple is `2 ^ 128` or beyond. -/
def round32 (x : ℚ) : F32 :=
  if 2 ^ 128 ≤ (round_half_even (x / 2 ^ (binade |x| - 23)) : ℚ) * 2 ^ (binade |x| - 23) then .pinf
  else if (round_half_even (x / 2 ^ (binade |x| - 23)) : ℚ) * 2 ^ (binade |x| - 23) ≤ -2 ^ 128
  then .ninf
  else .fin (round_half_even (x / 2 ^ (binade |x| - 23)) * 2 ^ (binade |x| - 23))

/-- The rational `x` is a binary32 value: rounding leaves it unchanged. -/
def representable (x : ℚ) : Prop := round32 x = .fin x

instance (x : ℚ) : Decidable (representable x) := by
  unfold representable
  infer_instance

/-- The operator `+` on `float`. -/
def F32.add : F32 → F32 → F32
  | .fin a, .fin b => round32 (a + b)
  | .fin _, .pinf => .pinf
  | .fin _, .ninf => .ninf
  | .pinf, .fin _ => .pinf
  | .pinf, .pinf => .pinf
  | .pinf, .ninf => .nan
  | .ninf, .fin _ => .ninf
  | .ninf, .pinf => .nan
  | .ninf, .ninf => .ninf
  | .nan, _ => .nan
  | .fin _, .nan => .nan
  | .pinf, .nan => .nan
  | .ninf, .nan => .nan

/-- The operator `*` on `float`. -/
def F32.mul : F32 → F32 → F32
  | .fin a, .fin b => round32 (a * b)
  | .fin a, .pinf => if a = 0 then .nan else if 0 < a then .pinf else .ninf
  | .fin a, .ninf => if a = 0 then .nan else if 0 < a then .ninf else .pinf
  | .pinf, .fin b => if b = 0 then .nan else if 0 < b then .pinf else .ninf
  | .ninf, .fin b => if b = 0 then .nan else if 0 < b then .ninf else .pinf
  | .pinf, .pinf => .pinf
  | .pinf, .ninf => .ninf
  | .ninf, .pinf => .ninf
  | .ninf, .ninf => .pinf
  | .nan, _ => .nan
  | .fin _, .nan => .nan
  | .pinf, .nan => .nan
  | .ninf, .nan => .nan

/-- The operator `<` on `float`; false when an operand is NaN. -/
def F32.lt : F32 → F32 → Bool
  | .fin a, .fin b => decide (a < b)
  | .fin _, .pinf => true
  | .ninf, .fin _ => true
  | .ninf, .pinf => true
  | _, _ => false

/-- The operator `<=` on `float`; false when an operand is NaN. -/
def F32.le : F32 → F32 → Bool
  | .fin a, .fin b => decide (a ≤ b)
  | .fin _, .pinf => true
  | .ninf, .fin _ => true
  | .ninf, .pinf => true
  | .pinf, .pinf => true
  | .ninf, .ninf => true
  | _, _ => false

/-- The value is finite: neither an infinity nor NaN. -/
def F32.finite : F32 → Prop
  | .fin _ => True
  | _ => False

instance (x : F32) : Decidable x.finite := by
  cases x <;> unfold F32.finite <;> infer_instance

/-- The rational value of a finite binary32 value (0 for the others). -/
def F32.val : F32 → ℚ
  | .fin q => q
  | _ => 0

/-- The function `std::min(a, b)` on `float`: returns `b` when `b < a`, otherwise `a`. -/
def std_min32 (a b : F32) : F32 := if F32.lt b a then b else a

/-- The sources with their `float` members: `panel` stores `float c; float v;`. -/
inductive source32 where
  | panel (c v : F32) : source32
  | parallel (sources : List source32) : source32
  | serial (sources : List source32) : source32

mutual
/-- The virtual method `current()` in the arithmetic of the program.
`panel`: `return c;`
`parallel`: `std::accumulate(sources.begin(), sources.end(), 0.0, sum)`
`serial`: `std::accumulate(sources.begin(), sources.end(), 1e6, min)` -/
def source32.current : source32 → F32
  | .panel c _ => c
  | .parallel sources => parallel_current_acc32 sources (.fin 0)
  | .serial sources => serial_current_acc32 sources (.fin 1000000)
/-- The virtual method `voltage()` in the arithmetic of the program.
`panel`: `return v;`
`parallel`: `std::accumulate(sources.begin(), sources.end(), 1e6, min)`
`serial`: `std::accumulate(sources.begin(), sources.end(), 0.0, sum)` -/
def source32.voltage : source32 → F32
  | .panel _ v => v
  | .parallel sources => parallel_voltage_acc32 sources (.fin 1000000)
  | .serial sources => serial_voltage_acc32 sources (.fin 0)
/-- The accumulate loop of `parallel::current` with its lambda
`sum = [](float v, const source* s){return v + s->current();}`, the sum rounded to `float`. -/
def parallel_current_acc32 : List source32 → F32 → F32
  | [], v => v
  | s :: rest, v => parallel_current_acc32 rest (F32.add v s.current)
/-- The accumulate loop of `parallel::voltage` with its lambda
`min = [](float v, const source* s){return std::min(v, s->voltage());}`. -/
def parallel_voltage_acc32 : List source32 → F32 → F32
  | [], v => v
  | s :: rest, v => parallel_voltage_acc32 rest (std_min32 v s.voltage)
/-- The accumulate loop of `serial::voltage` with its lambda
`sum = [](float v, const source* s){return v + s->voltage();}`, the sum rounded to `float`. -/
def serial_voltage_acc32 : List source32 → F32 → F32
  | [], v => v
  | s :: rest, v => serial_voltage_acc32 rest (F32.add v s.voltage)
/-- The accumulate loop of `serial::current` with its lambda
`min = [](float v, const source* s){return std::min(v, s->current());}`. -/
def serial_current_acc32 : List source32 → F32 → F32
  | [], v => v
  | s :: rest, v => serial_current_acc32 rest (std_min32 v s.current)
end

/-- The free function `power` in the arithmetic of the program:
`s.current() * s.voltage()` in `float`. -/
def power32 (s : source32) : F32 := F32.mul s.current s.voltage

/-- Every addition of the left-to-right sum of `xs`, started from the accumulator `a`, is
exact: each term is finite and each partial sum is a binary32 value. -/
def exact_sums : List F32 → ℚ → Prop
  | [], _ => True
  | x :: rest, a => x.finite ∧ representable (a + x.val) ∧ exact_sums rest (a + x.val)

/-- Whether the additions of a left-to-right sum are exact can be computed. -/
def exact_sums_decidable : (xs : List F32) → (a : ℚ) → Decidable (exact_sums xs a)
  | [], _ => isTrue trivial
  | x :: rest, a =>
    have := exact_sums_decidable rest (a + x.val)
    by unfold exact_sums; infer_instance

instance (xs : List F32) (a : ℚ) : Decidable (exact_sums xs a) := exact_sums_decidable xs a

/-- The product `s.current() * s.voltage()` is exact: both factors are finite and their
product is a binary32 value. -/
def exact_power (s : source32) : Prop :=
  s.current.finite ∧ s.voltage.finite ∧ representable (s.current.val * s.voltage.val)

instance (s : source32) : Decidable (exact_power s) := by
  unfold exact_power
  infer_instance

mutual
/-- All sub-sources of a source tree, the tree itself first. -/
def source32.subsources : source32 → List source32
  | .panel c v => [.panel c v]
  | .parallel sources => .parallel sources :: subsources_list32 sources
  | .serial sources => .serial sources :: subsources_list32 sources
/-- All sub-sources of the trees of a list. -/
def subsources_list32 : List source32 → List source32
  | [] => []
  | s :: rest => s.subsources ++ subsources_list32 rest
end

mutual
/-- Every panel leaf of the tree has `c >= 0` and `v >= 0`. -/
def source32.leaves_nonneg : source32 → Prop
  | .panel c v => F32.le (.fin 0) c = true ∧ F32.le (.fin 0) v = true
  | .parallel sources => leaves_nonneg_list32 sources
  | .serial sources => leaves_nonneg_list32 sources
/-- Every panel leaf of every tree of the list has `c >= 0` and `v >= 0`. -/
def leaves_nonneg_list32 : List source32 → Prop
  | [] => True
  | s :: rest => s.leaves_nonneg ∧ leaves_nonneg_list32 rest
end

/-- The product `s.current() * s.voltage()` is infinity times zero. -/
def inf_times_zero (s : source32) : Prop :=
  (s.current = .pinf ∧ s.voltage = .fin 0) ∨ (s.current = .fin 0 ∧ s.voltage = .pinf)

/-- Induction on source trees: a property that holds of every panel, and of a composite
whenever it holds of all its children, holds of every source. -/
theorem source.induct {P : source → Prop}
    (hpanel : ∀ c v, P (.panel c v))
    (hparallel : ∀ sources, (∀ s ∈ sources, P s) → P (.parallel sources))
    (hserial : ∀ sources, (∀ s ∈ sources, P s) → P (.serial sources)) :
    ∀ t, P t := by
  intro t
  refine @source.rec P (fun ss => ∀ s ∈ ss, P s) hpanel hparallel hserial ?_ ?_ t
  · intro s hs
    cases hs
  · intro head tail hhead htail s hs
    rcases List.mem_cons.mp hs with h | h
    · exact h ▸ hhead
    · exact htail s h

/-- Induction on `float` source trees. -/
theorem source32_induct {P : source32 → Prop}
    (hpanel : ∀ c v, P (.panel c v))
    (hparallel : ∀ sources, (∀ s ∈ sources, P s) → P (.parallel sources))
    (hserial : ∀ sources, (∀ s ∈ sources, P s) → P (.serial sources)) :
    ∀ t, P t := by
  intro t
  refine @source32.rec P (fun ss => ∀ s ∈ ss, P s) hpanel hparallel hserial ?_ ?_ t
  · intro s hs
    cases hs
  · intro head tail hhead htail s hs
    rcases List.mem_cons.mp hs with h | h
    · exact h ▸ hhead
    · exact htail s h

/-! The accumulate loops are `std::accumulate` with the lambdas of the source -/

theorem parallel_current_acc_eq_accumulate (ss : List source) (v : ℚ) :
    parallel_current_acc ss v = accumulate ss v (fun v s => v + s.current) := by
  induction ss generalizing v with
  | nil => simp [parallel_current_acc, accumulate]
  | cons s rest ih => simp [parallel_current_acc, accumulate, ih]

theorem parallel_voltage_acc_eq_accumulate (ss : List source) (v : ℚ) :
    parallel_voltage_acc ss v = accumulate ss v (fun v s => std_min v s.voltage) := by
  induction ss generalizing v with
  | nil => simp [parallel_voltage_acc, accumulate]
  | cons s rest ih => simp [parallel_voltage_acc, accumulate, ih]

theorem serial_voltage_acc_eq_accumulate (ss : List source) (v : ℚ) :
    serial_voltage_acc ss v = accumulate ss v (fun v s => v + s.voltage) := by
  induction ss generalizing v with
  | nil => simp [serial_voltage_acc, accumulate]
  | cons s rest ih => simp [serial_voltage_acc, accumulate, ih]

theorem serial_current_acc_eq_accumulate (ss : List source) (v : ℚ) :
    serial_current_acc ss v = accumulate ss v (fun v s => std_min v s.current) := by
  induction ss generalizing v with
  | nil => simp [serial_current_acc, accumulate]
  | cons s rest ih => simp [serial_current_acc, accumulate, ih]

theorem accumulate_eq_foldl {α β : Type} (xs : List α) (init : β) (op : β → α → β) :
    accumulate xs init op = List.foldl op init xs := by
  induction xs generalizing init with
  | nil => rfl
  | cons x rest ih => simp [accumulate, ih]

/-! Closed forms of the loops -/

theorem std_min_eq_min (a b : ℚ) : std_min a b = min a b := by
  unfold std_min
  split_ifs with h
  · exact (min_eq_right (le_of_lt h)).symm
  · exact (min_eq_left (not_lt.mp h)).symm

theorem parallel_current_acc_eq (ss : List source) (v : ℚ) :
    parallel_current_acc ss v = v + (ss.map source.current).sum := by
  induction ss generalizing v with
  | nil => simp [parallel_current_acc]
  | cons s rest ih => simp [parallel_current_acc, ih, add_assoc]

theorem serial_voltage_acc_eq (ss : List source) (v : ℚ) :
    serial_voltage_acc ss v = v + (ss.map source.voltage).sum := by
  induction ss generalizing v with
  | nil => simp [serial_voltage_acc]
  | cons s rest ih => simp [serial_voltage_acc, ih, add_assoc]

theorem parallel_voltage_acc_eq (ss : List source) (v : ℚ) :
    ((parallel_voltage_acc ss v : ℚ) : WithTop ℚ)
      = min (v : WithTop ℚ) (ss.map source.voltage).minimum := by
  induction ss generalizing v with
  | nil => simp [parallel_voltage_acc]
  | cons s rest ih =>
    simp [parallel_voltage_acc, ih, std_min_eq_min, List.minimum_cons, min_assoc]

theorem serial_current_acc_eq (ss : List source) (v : ℚ) :
    ((serial_current_acc ss v : ℚ) : WithTop ℚ)
      = min (v : WithTop ℚ) (ss.map source.current).minimum := by
  induction ss generalizing v with
  | nil => simp [serial_current_acc]
  | cons s rest ih =>
    simp [serial_current_acc, ih, std_min_eq_min, List.minimum_cons, min_assoc]

theorem parallel_current_eq (ss : List source) :
    (source.parallel ss).current = (ss.map source.current).sum := by
  simp [source.current, parallel_current_acc_eq]

theorem serial_voltage_eq (ss : List source) :
    (source.serial ss).voltage = (ss.map source.voltage).sum := by
  simp [source.voltage, serial_voltage_acc_eq]

theorem parallel_voltage_eq (ss : List source) :
    (((source.parallel ss).voltage : ℚ) : WithTop ℚ)
      = min ((1000000 : ℚ) : WithTop ℚ) (ss.map source.voltage).minimum := by
  simp only [source.voltage, parallel_voltage_acc_eq]

theorem serial_current_eq (ss : List source) :
    (((source.serial ss).current : ℚ) : WithTop ℚ)
      = min ((1000000 : ℚ) : WithTop ℚ) (ss.map source.current).minimum := by
  simp only [source.current, serial_current_acc_eq]

theorem parallel_voltage_acc_append (xs ys : List source) (v : ℚ) :
    parallel_voltage_acc (xs ++ ys) v = parallel_voltage_acc ys (parallel_voltage_acc xs v) := by
  induction xs generalizing v with
  | nil => simp [parallel_voltage_acc]
  | cons s rest ih => simp [parallel_voltage_acc, ih]

theorem serial_current_acc_append (xs ys : List source) (v : ℚ) :
    serial_current_acc (xs ++ ys) v = serial_current_acc ys (serial_current_acc xs v) := by
  induction xs generalizing v with
  | nil => simp [serial_current_acc]
  | cons s rest ih => simp [serial_current_acc, ih]

theorem parallel_voltage_acc_le (ss : List source) (v : ℚ) :
    parallel_voltage_acc ss v ≤ v := by
  induction ss generalizing v with
  | nil => simp [parallel_voltage_acc]
  | cons s rest ih =>
    simp only [parallel_voltage_acc, std_min_eq_min]
    exact le_trans (ih _) (min_le_left _ _)

theorem serial_current_acc_le (ss : List source) (v : ℚ) :
    serial_current_acc ss v ≤ v := by
  induction ss generalizing v with
  | nil => simp [serial_current_acc]
  | cons s rest ih =>
    simp only [serial_current_acc, std_min_eq_min]
    exact le_trans (ih _) (min_le_left _ _)

theorem parallel_voltage_le (ss : List source) : (source.parallel ss).voltage ≤ 1000000 := by
  simp only [source.voltage]
  exact parallel_voltage_acc_le ss 1000000

theorem serial_current_le (ss : List source) : (source.serial ss).current ≤ 1000000 := by
  simp only [source.current]
  exact serial_current_acc_le ss 1000000

/-! The list helpers of the tree notions -/

theorem dual_list_eq_map (ss : List source) : dual_list ss = ss.map source.dual := by
  induction ss with
  | nil => simp [dual_list]
  | cons head rest ih => simp [dual_list, ih]

theorem depth_le_depth_list (ss : List source) (s : source) (hs : s ∈ ss) :
    s.depth ≤ depth_list ss := by
  induction ss with
  | nil => cases hs
  | cons head rest ih =>
    simp only [depth_list]
    rcases List.mem_cons.mp hs with h | h
    · subst h
      exact le_max_left _ _
    · exact le_trans (ih h) (le_max_right _ _)

theorem serial_current_acc_dual (ss : List source) (v : ℚ)
    (h : ∀ s ∈ ss, s.dual.current = s.voltage) :
    serial_current_acc (ss.map source.dual) v = parallel_voltage_acc ss v := by
  induction ss generalizing v with
  | nil => simp [serial_current_acc, parallel_voltage_acc]
  | cons head rest ih =>
    simp only [List.map_cons, serial_current_acc, parallel_voltage_acc,
      h head (List.mem_cons_self _ _)]
    exact ih _ (fun s hs => h s (List.mem_cons_of_mem _ hs))

theorem serial_voltage_acc_dual (ss : List source) (v : ℚ)
    (h : ∀ s ∈ ss, s.dual.voltage = s.current) :
    serial_voltage_acc (ss.map source.dual) v = parallel_current_acc ss v := by
  induction ss generalizing v with
  | nil => simp [serial_voltage_acc, parallel_current_acc]
  | cons head rest ih =>
    simp only [List.map_cons, serial_voltage_acc, parallel_current_acc,
      h head (List.mem_cons_self _ _)]
    exact ih _ (fun s hs => h s (List.mem_cons_of_mem _ hs))

theorem parallel_current_acc_dual (ss : List source) (v : ℚ)
    (h : ∀ s ∈ ss, s.dual.current = s.voltage) :
    parallel_current_acc (ss.map source.dual) v = serial_voltage_acc ss v := by
  induction ss generalizing v with
  | nil => simp [serial_voltage_acc, parallel_current_acc]
  | cons head rest ih =>
    simp only [List.map_cons, serial_voltage_acc, parallel_current_acc,
      h head (List.mem_cons_self _ _)]
    exact ih _ (fun s hs => h s (List.mem_cons_of_mem _ hs))

theorem parallel_voltage_acc_dual (ss : List source) (v : ℚ)
    (h : ∀ s ∈ ss, s.dual.voltage = s.current) :
    parallel_voltage_acc (ss.map source.dual) v = serial_current_acc ss v := by
  induction ss generalizing v with
  | nil => simp [serial_current_acc, parallel_voltage_acc]
  | cons head rest ih =>
    simp only [List.map_cons, serial_current_acc, parallel_voltage_acc,
      h head (List.mem_cons_self _ _)]
    exact ih _ (fun s hs => h s (List.mem_cons_of_mem _ hs))

theorem dual_swaps :
    ∀ t : source, t.dual.current = t.voltage ∧ t.dual.voltage = t.current := by
  apply source.induct
  · intro c v
    simp [source.dual, source.current, source.voltage]
  · intro ss ih
    simp only [source.dual, dual_list_eq_map, source.current, source.voltage]
    exact ⟨serial_current_acc_dual ss _ (fun s hs => (ih s hs).1),
      serial_voltage_acc_dual ss _ (fun s hs => (ih s hs).2)⟩
  · intro ss ih
    simp only [source.dual, dual_list_eq_map, source.current, source.voltage]
    exact ⟨parallel_current_acc_dual ss _ (fun s hs => (ih s hs).1),
      parallel_voltage_acc_dual ss _ (fun s hs => (ih s hs).2)⟩

theorem accumulate_within_eq {α β γ : Type} (xs : List α) (init : β)
    (g : α → Option γ) (f : α → γ) (op : β → γ → β)
    (hg : ∀ x ∈ xs, g x = some (f x)) :
    accumulate_within xs init (fun v x => (g x).map (fun c => op v c))
      = some (accumulate xs init (fun v x => op v (f x))) := by
  induction xs generalizing init with
  | nil => simp [accumulate_within, accumulate]
  | cons x rest ih =>
    simp only [accumulate_within, accumulate, hg x (List.mem_cons_self _ _), Option.map_some']
    exact ih _ (fun y hy => hg y (List.mem_cons_of_mem _ hy))

theorem depth_pos (t : source) : 1 ≤ t.depth := by
  cases t <;> simp [source.depth]

theorem within_eq :
    ∀ t : source, ∀ n : Nat, t.depth ≤ n →
      current_within n t = some t.current ∧ voltage_within n t = some t.voltage := by
  apply source.induct
  · intro c v n hn
    cases n with
    | zero => simp [source.depth] at hn
    | succ m => simp [current_within, voltage_within, source.current, source.voltage]
  · intro ss ih n hn
    cases n with
    | zero => simp [source.depth] at hn
    | succ m =>
      have hm : depth_list ss ≤ m := by
        simp only [source.depth] at hn
        omega
      have hch : ∀ s ∈ ss, current_within m s = some s.current ∧
          voltage_within m s = some s.voltage :=
        fun s hs => ih s hs m (le_trans (depth_le_depth_list ss s hs) hm)
      constructor
      · rw [current_within, source.current, parallel_current_acc_eq_accumulate]
        exact accumulate_within_eq ss 0 (current_within m) source.current (fun v c => v + c)
          (fun s hs => (hch s hs).1)
      · rw [voltage_within, source.voltage, parallel_voltage_acc_eq_accumulate]
        exact accumulate_within_eq ss 1000000 (voltage_within m) source.voltage
          (fun v w => std_min v w) (fun s hs => (hch s hs).2)
  · intro ss ih n hn
    cases n with
    | zero => simp [source.depth] at hn
    | succ m =>
      have hm : depth_list ss ≤ m := by
        simp only [source.depth] at hn
        omega
      have hch : ∀ s ∈ ss, current_within m s = some s.current ∧
          voltage_within m s = some s.voltage :=
        fun s hs => ih s hs m (le_trans (depth_le_depth_list ss s hs) hm)
      constructor
      · rw [current_within, source.current, serial_current_acc_eq_accumulate]
        exact accumulate_within_eq ss 1000000 (current_within m) source.current
          (fun v c => std_min v c) (fun s hs => (hch s hs).1)
      · rw [voltage_within, source.voltage, serial_voltage_acc_eq_accumulate]
        exact accumulate_within_eq ss 0 (voltage_within m) source.voltage (fun v w => v + w)
          (fun s hs => (hch s hs).2)

/-- The budget is not idle: with fewer nested calls than the nesting depth, the evaluation of
`_2s_2s_1_sun100_2p_kc50t` does not return. -/
theorem within_exhausted :
    _2s_2s_1_sun100_2p_kc50t.depth = 4 ∧
    current_within 3 _2s_2s_1_sun100_2p_kc50t = none ∧
    voltage_within 3 _2s_2s_1_sun100_2p_kc50t = none := by
  refine ⟨by decide, ?_, ?_⟩
  · simp [_2s_2s_1_sun100_2p_kc50t, _2s_1_sun100_2p_kc50t, _2p_kc50t, kc50t, sun100,
      current_within, accumulate_within]
  · simp [_2s_2s_1_sun100_2p_kc50t, _2s_1_sun100_2p_kc50t, _2p_kc50t, kc50t, sun100,
      voltage_within, accumulate_within]

/-! The minimum of `float` values -/

theorem std_min32_fin_fin (a b : ℚ) : std_min32 (.fin a) (.fin b) = .fin (min a b) := by
  simp only [std_min32, F32.lt, decide_eq_true_eq]
  split_ifs with h
  · rw [min_eq_right (le_of_lt h)]
  · rw [min_eq_left (not_lt.mp h)]

theorem std_min32_fin_pinf (a : ℚ) : std_min32 (.fin a) .pinf = .fin a := by
  simp [std_min32, F32.lt]

theorem std_min32_fin_ninf (a : ℚ) : std_min32 (.fin a) .ninf = .ninf := by
  simp [std_min32, F32.lt]

theorem std_min32_pinf_fin (b : ℚ) : std_min32 .pinf (.fin b) = .fin b := by
  simp [std_min32, F32.lt]

theorem std_min32_pinf_pinf : std_min32 .pinf .pinf = .pinf := by
  simp [std_min32, F32.lt]

theorem std_min32_pinf_ninf : std_min32 .pinf .ninf = .ninf := by
  simp [std_min32, F32.lt]

theorem std_min32_ninf (x : F32) : std_min32 .ninf x = .ninf := by
  cases x <;> simp [std_min32, F32.lt]

theorem std_min32_nan_left (x : F32) : std_min32 .nan x = .nan := by
  cases x <;> simp [std_min32, F32.lt]

theorem std_min32_nan_right (a : F32) : std_min32 a .nan = a := by
  cases a <;> simp [std_min32, F32.lt]

theorem std_min32_right_comm (a x y : F32) :
    std_min32 (std_min32 a x) y = std_min32 (std_min32 a y) x := by
  cases a <;> cases x <;> cases y <;>
    simp only [std_min32_fin_fin, std_min32_fin_pinf, std_min32_fin_ninf, std_min32_pinf_fin,
      std_min32_pinf_pinf, std_min32_pinf_ninf, std_min32_ninf, std_min32_nan_left,
      std_min32_nan_right] <;>
    first
    | rw [min_right_comm]
    | rw [min_comm]

theorem std_min32_assoc (a b x : F32) (hb : b ≠ .nan) :
    std_min32 (std_min32 a b) x = std_min32 a (std_min32 b x) := by
  cases a <;> cases b <;> cases x <;>
    first
    | exact absurd rfl hb
    | simp only [std_min32_fin_fin, std_min32_fin_pinf, std_min32_fin_ninf, std_min32_pinf_fin,
        std_min32_pinf_pinf, std_min32_pinf_ninf, std_min32_ninf, std_min32_nan_left,
        std_min32_nan_right, min_assoc]

theorem std_min32_idem (a x : F32) :
    std_min32 (std_min32 a x) x = std_min32 a x := by
  cases a <;> cases x <;>
    simp only [std_min32_fin_fin, std_min32_fin_pinf, std_min32_fin_ninf, std_min32_pinf_fin,
      std_min32_pinf_pinf, std_min32_pinf_ninf, std_min32_ninf, std_min32_nan_left,
      std_min32_nan_right, min_assoc, min_self]

theorem std_min32_ne_nan (a x : F32) (ha : a ≠ .nan) : std_min32 a x ≠ .nan := by
  cases a <;> cases x <;>
    first
    | exact absurd rfl ha
    | simp [std_min32_fin_fin, std_min32_fin_pinf, std_min32_fin_ninf, std_min32_pinf_fin,
        std_min32_pinf_pinf, std_min32_pinf_ninf, std_min32_ninf, std_min32_nan_left,
        std_min32_nan_right]

theorem std_min32_self (a : F32) : std_min32 a a = a := by
  unfold std_min32
  split_ifs <;> rfl

theorem foldl_std_min32_perm {xs ys : List F32} (p : xs.Perm ys) (a : F32) :
    List.foldl std_min32 a xs = List.foldl std_min32 a ys :=
  p.foldl_eq' (fun x _ y _ z => std_min32_right_comm z x y) a

theorem foldl_std_min32_assoc (xs : List F32) (a b : F32) (hb : b ≠ .nan) :
    List.foldl std_min32 (std_min32 a b) xs = std_min32 a (List.foldl std_min32 b xs) := by
  induction xs generalizing b with
  | nil => rfl
  | cons x rest ih =>
    simp only [List.foldl_cons]
    rw [std_min32_assoc a b x hb]
    exact ih _ (std_min32_ne_nan b x hb)

theorem foldl_std_min32_absorb (xs : List F32) (a s : F32) (h : std_min32 a s = a) :
    std_min32 (List.foldl std_min32 a xs) s = List.foldl std_min32 a xs := by
  induction xs generalizing a with
  | nil => exact h
  | cons x rest ih =>
    simp only [List.foldl_cons]
    apply ih
    rw [std_min32_right_comm, h]

theorem foldl_std_min32_replicate (n : Nat) (a x : F32) :
    List.foldl std_min32 a (List.replicate (n + 1) x) = std_min32 a x := by
  induction n generalizing a with
  | zero => rfl
  | succ k ih => rw [List.replicate_succ, List.foldl_cons, ih, std_min32_idem]

theorem le_std_min32_right (a x : F32) (ha : a ≠ .nan) (hx : x ≠ .nan) :
    F32.le (std_min32 a x) x = true := by
  cases a <;> cases x <;>
    first
    | exact absurd rfl ha
    | exact absurd rfl hx
    | simp [std_min32_fin_fin, std_min32_fin_pinf, std_min32_fin_ninf, std_min32_pinf_fin,
        std_min32_pinf_pinf, std_min32_pinf_ninf, std_min32_ninf, F32.le]

theorem le_std_min32_of_le (b y x : F32) (h : F32.le b x = true) :
    F32.le (std_min32 b y) x = true := by
  cases b <;> cases y <;> cases x <;>
    simp only [std_min32_fin_fin, std_min32_fin_pinf, std_min32_fin_ninf, std_min32_pinf_fin,
      std_min32_pinf_pinf, std_min32_pinf_ninf, std_min32_ninf, std_min32_nan_left,
      std_min32_nan_right, F32.le, decide_eq_true_eq] at h ⊢ <;>
    first
    | exact min_le_of_left_le h
    | exact h
    | exact Bool.noConfusion h

theorem foldl_std_min32_le_of_le (xs : List F32) (b x : F32) (h : F32.le b x = true) :
    F32.le (List.foldl std_min32 b xs) x = true := by
  induction xs generalizing b with
  | nil => exact h
  | cons y rest ih => exact ih _ (le_std_min32_of_le b y x h)

theorem foldl_std_min32_le_of_mem (xs : List F32) (a x : F32) (ha : a ≠ .nan) (hx : x ≠ .nan)
    (hmem : x ∈ xs) : F32.le (List.foldl std_min32 a xs) x = true := by
  induction xs generalizing a with
  | nil => cases hmem
  | cons y rest ih =>
    simp only [List.foldl_cons]
    rcases List.mem_cons.mp hmem with h | h
    · subst h
      exact foldl_std_min32_le_of_le rest _ _ (le_std_min32_right a x ha hx)
    · exact ih _ (std_min32_ne_nan a y ha) h

theorem nonneg_std_min32 (a x : F32) (ha : F32.le (.fin 0) a = true)
    (hx : F32.le (.fin 0) x = true) : F32.le (.fin 0) (std_min32 a x) = true := by
  unfold std_min32
  split_ifs
  · exact hx
  · exact ha

theorem foldl_std_min32_nonneg (xs : List F32) (a : F32) (ha : F32.le (.fin 0) a = true)
    (hxs : ∀ x ∈ xs, F32.le (.fin 0) x = true) :
    F32.le (.fin 0) (List.foldl std_min32 a xs) = true := by
  induction xs generalizing a with
  | nil => exact ha
  | cons y rest ih =>
    exact ih _ (nonneg_std_min32 a y ha (hxs y (List.mem_cons_self _ _)))
      (fun x hx => hxs x (List.mem_cons_of_mem _ hx))

/-! Rounded sums and products -/

theorem round_half_even_nonneg (y : ℚ) (hy : 0 ≤ y) : 0 ≤ round_half_even y := by
  have hf : 0 ≤ ⌊y⌋ := Int.floor_nonneg.mpr hy
  unfold round_half_even
  split_ifs <;> omega

theorem round32_nonneg (x : ℚ) (hx : 0 ≤ x) : F32.le (.fin 0) (round32 x) = true := by
  have hq : (0 : ℚ) < 2 ^ (binade |x| - 23) := zpow_pos (by norm_num) _
  have hr : (0 : ℚ) ≤ (round_half_even (x / 2 ^ (binade |x| - 23)) : ℚ)
      * 2 ^ (binade |x| - 23) :=
    mul_nonneg (Int.cast_nonneg.mpr (round_half_even_nonneg _ (div_nonneg hx hq.le))) hq.le
  unfold round32
  split_ifs with h1 h2
  · rfl
  · exfalso
    have : (0 : ℚ) < 2 ^ 128 := by norm_num
    linarith
  · simpa [F32.le] using hr

theorem nonneg_add32 (a b : F32) (ha : F32.le (.fin 0) a = true)
    (hb : F32.le (.fin 0) b = true) : F32.le (.fin 0) (F32.add a b) = true := by
  cases a <;> cases b <;> simp only [F32.le, F32.add, decide_eq_true_eq] at ha hb ⊢ <;>
    first
    | exact round32_nonneg _ (add_nonneg ha hb)
    | exact Bool.noConfusion ha
    | exact Bool.noConfusion hb

theorem foldl_add32_nonneg (xs : List F32) (a : F32) (ha : F32.le (.fin 0) a = true)
    (hxs : ∀ x ∈ xs, F32.le (.fin 0) x = true) :
    F32.le (.fin 0) (List.foldl F32.add a xs) = true := by
  induction xs generalizing a with
  | nil => exact ha
  | cons y rest ih =>
    exact ih _ (nonneg_add32 a y ha (hxs y (List.mem_cons_self _ _)))
      (fun x hx => hxs x (List.mem_cons_of_mem _ hx))

theorem foldl_add32_exact (xs : List F32) (a : ℚ) (h : exact_sums xs a) :
    List.foldl F32.add (.fin a) xs = .fin (a + (xs.map F32.val).sum) := by
  induction xs generalizing a with
  | nil => simp
  | cons x rest ih =>
    obtain ⟨hfin, hrep, hrest⟩ := h
    cases x with
    | fin q =>
      simp only [F32.val, representable] at hrep hrest
      simp only [List.foldl_cons, F32.add, List.map_cons, List.sum_cons, F32.val]
      rw [hrep, ih _ hrest, add_assoc]
    | pinf => exact absurd hfin (by simp [F32.finite])
    | ninf => exact absurd hfin (by simp [F32.finite])
    | nan => exact absurd hfin (by simp [F32.finite])

theorem nonneg_mul32 (a b : F32) (ha : F32.le (.fin 0) a = true)
    (hb : F32.le (.fin 0) b = true)
    (hex : ¬ ((a = .pinf ∧ b = .fin 0) ∨ (a = .fin 0 ∧ b = .pinf))) :
    F32.le (.fin 0) (F32.mul a b) = true := by
  cases a with
  | fin x =>
    cases b with
    | fin y =>
      simp only [F32.le, decide_eq_true_eq] at ha hb
      exact round32_nonneg _ (mul_nonneg ha hb)
    | pinf =>
      simp only [F32.le, decide_eq_true_eq] at ha
      have hx : x ≠ 0 := fun h => hex (Or.inr ⟨by rw [h], rfl⟩)
      have hpos : 0 < x := lt_of_le_of_ne ha (Ne.symm hx)
      simp [F32.mul, hx, hpos, F32.le]
    | ninf => exact absurd hb (by simp [F32.le])
    | nan => exact absurd hb (by simp [F32.le])
  | pinf =>
    cases b with
    | fin y =>
      simp only [F32.le, decide_eq_true_eq] at hb
      have hy : y ≠ 0 := fun h => hex (Or.inl ⟨rfl, by rw [h]⟩)
      have hpos : 0 < y := lt_of_le_of_ne hb (Ne.symm hy)
      simp [F32.mul, hy, hpos, F32.le]
    | pinf => simp [F32.mul, F32.le]
    | ninf => exact absurd hb (by simp [F32.le])
    | nan => exact absurd hb (by simp [F32.le])
  | ninf => exact absurd ha (by simp [F32.le])
  | nan => exact absurd ha (by simp [F32.le])

theorem mul32_pinf_zero :
    F32.mul .pinf (.fin 0) = .nan ∧ F32.mul (.fin 0) .pinf = .nan := by
  constructor <;> simp [F32.mul]

/-! Closed forms of the `float` loops -/

theorem parallel_current_acc32_eq (ss : List source32) (v : F32) :
    parallel_current_acc32 ss v = List.foldl F32.add v (ss.map source32.current) := by
  induction ss generalizing v with
  | nil => simp [parallel_current_acc32]
  | cons s rest ih => simp [parallel_current_acc32, ih]

theorem parallel_voltage_acc32_eq (ss : List source32) (v : F32) :
    parallel_voltage_acc32 ss v = List.foldl std_min32 v (ss.map source32.voltage) := by
  induction ss generalizing v with
  | nil => simp [parallel_voltage_acc32]
  | cons s rest ih => simp [parallel_voltage_acc32, ih]

theorem serial_voltage_acc32_eq (ss : List source32) (v : F32) :
    serial_voltage_acc32 ss v = List.foldl F32.add v (ss.map source32.voltage) := by
  induction ss generalizing v with
  | nil => simp [serial_voltage_acc32]
  | cons s rest ih => simp [serial_voltage_acc32, ih]

theorem serial_current_acc32_eq (ss : List source32) (v : F32) :
    serial_current_acc32 ss v = List.foldl std_min32 v (ss.map source32.current) := by
  induction ss generalizing v with
  | nil => simp [serial_current_acc32]
  | cons s rest ih => simp [serial_current_acc32, ih]

theorem parallel_current32_eq (ss : List source32) :
    (source32.parallel ss).current
      = List.foldl F32.add (.fin 0) (ss.map source32.current) := by
  rw [source32.current, parallel_current_acc32_eq]

theorem parallel_voltage32_eq (ss : List source32) :
    (source32.parallel ss).voltage
      = List.foldl std_min32 (.fin 1000000) (ss.map source32.voltage) := by
  rw [source32.voltage, parallel_voltage_acc32_eq]

theorem serial_voltage32_eq (ss : List source32) :
    (source32.serial ss).voltage
      = List.foldl F32.add (.fin 0) (ss.map source32.voltage) := by
  rw [source32.voltage, serial_voltage_acc32_eq]

theorem serial_current32_eq (ss : List source32) :
    (source32.serial ss).current
      = List.foldl std_min32 (.fin 1000000) (ss.map source32.current) := by
  rw [source32.current, serial_current_acc32_eq]

theorem parallel_current32_exact (ss : List source32)
    (h : exact_sums (ss.map source32.current) 0) :
    (source32.parallel ss).current = .fin ((ss.map source32.current).map F32.val).sum := by
  rw [parallel_current32_eq, foldl_add32_exact _ _ h, zero_add]

theorem serial_voltage32_exact (ss : List source32)
    (h : exact_sums (ss.map source32.voltage) 0) :
    (source32.serial ss).voltage = .fin ((ss.map source32.voltage).map F32.val).sum := by
  rw [serial_voltage32_eq, foldl_add32_exact _ _ h, zero_add]

theorem foldl_std_min32_flatten (xs ys : List F32) (s : F32) (hs : s ≠ .nan) :
    List.foldl std_min32 (List.foldl std_min32 s xs) ys
      = std_min32 (List.foldl std_min32 s xs) (List.foldl std_min32 s ys) := by
  rw [← foldl_std_min32_assoc ys _ s hs,
    foldl_std_min32_absorb xs s s (std_min32_self s)]

theorem ne_nan_of_nonneg (x : F32) (h : F32.le (.fin 0) x = true) : x ≠ .nan := by
  intro hx
  rw [hx] at h
  exact Bool.noConfusion h

/-! Sub-sources and leaves of `float` trees -/

theorem leaves_nonneg_list32_iff (ss : List source32) :
    leaves_nonneg_list32 ss ↔ ∀ s ∈ ss, s.leaves_nonneg := by
  induction ss with
  | nil => simp [leaves_nonneg_list32]
  | cons head rest ih => simp [leaves_nonneg_list32, ih]

theorem mem_subsources_list32 (ss : List source32) (u : source32) :
    u ∈ subsources_list32 ss ↔ ∃ s ∈ ss, u ∈ s.subsources := by
  induction ss with
  | nil => simp [subsources_list32]
  | cons head rest ih => simp [subsources_list32, ih]

theorem self_mem_subsources32 (t : source32) : t ∈ t.subsources := by
  cases t <;> simp [source32.subsources]

theorem nonneg_of_leaves_nonneg32 :
    ∀ t : source32, t.leaves_nonneg →
      F32.le (.fin 0) t.current = true ∧ F32.le (.fin 0) t.voltage = true := by
  apply source32_induct
  · intro c v h
    simpa [source32.leaves_nonneg, source32.current, source32.voltage] using h
  · intro ss ih h
    simp only [source32.leaves_nonneg, leaves_nonneg_list32_iff] at h
    rw [parallel_current32_eq, parallel_voltage32_eq]
    constructor
    · apply foldl_add32_nonneg _ _ (by simp [F32.le])
      intro x hx
      obtain ⟨s, hs, rfl⟩ := List.mem_map.mp hx
      exact (ih s hs (h s hs)).1
    · apply foldl_std_min32_nonneg _ _ (by simp [F32.le])
      intro x hx
      obtain ⟨s, hs, rfl⟩ := List.mem_map.mp hx
      exact (ih s hs (h s hs)).2
  · intro ss ih h
    simp only [source32.leaves_nonneg, leaves_nonneg_list32_iff] at h
    rw [serial_current32_eq, serial_voltage32_eq]
    constructor
    · apply foldl_std_min32_nonneg _ _ (by simp [F32.le])
      intro x hx
      obtain ⟨s, hs, rfl⟩ := List.mem_map.mp hx
      exact (ih s hs (h s hs)).1
    · apply foldl_add32_nonneg _ _ (by simp [F32.le])
      intro x hx
      obtain ⟨s, hs, rfl⟩ := List.mem_map.mp hx
      exact (ih s hs (h s hs)).2

theorem leaves_nonneg_of_mem_subsources32 :
    ∀ t : source32, t.leaves_nonneg → ∀ u ∈ t.subsources, u.leaves_nonneg := by
  apply source32_induct
  · intro c v h u hu
    simp only [source32.subsources, List.mem_singleton] at hu
    subst hu
    exact h
  · intro ss ih h u hu
    simp only [source32.subsources, List.mem_cons, mem_subsources_list32] at hu
    rcases hu with rfl | ⟨s, hs, hu⟩
    · exact h
    · simp only [source32.leaves_nonneg, leaves_nonneg_list32_iff] at h
      exact ih s hs (h s hs) u hu
  · intro ss ih h u hu
    simp only [source32.subsources, List.mem_cons, mem_subsources_list32] at hu
    rcases hu with rfl | ⟨s, hs, hu⟩
    · exact h
    · simp only [source32.leaves_nonneg, leaves_nonneg_list32_iff] at h
      exact ih s hs (h s hs) u hu

/-! Exact sums and products -/

theorem exact_sums_replicate (m : Nat) (j : Nat) (v : ℚ)
    (h : ∀ k : Nat, k ≤ j + m → representable (k * v)) :
    exact_sums (List.replicate m (.fin v)) (j * v) := by
  induction m generalizing j with
  | zero => trivial
  | succ i ih =>
    have hstep : (j : ℚ) * v + v = ((j + 1 : Nat) : ℚ) * v := by push_cast; ring
    refine ⟨trivial, ?_, ?_⟩
    · simp only [F32.val]
      rw [hstep]
      exact h (j + 1) (by omega)
    · simp only [F32.val]
      rw [hstep]
      exact ih (j + 1) (fun k hk => h k (by omega))

theorem sum_mul_le_sum_mul {α : Type} (l : List α) (f g : α → ℚ) (m : ℚ)
    (h : ∀ s ∈ l, 0 ≤ f s ∧ m ≤ g s) :
    (l.map f).sum * m ≤ (l.map (fun s => f s * g s)).sum := by
  induction l with
  | nil => simp
  | cons head rest ih =>
    have hh := h head (List.mem_cons_self _ _)
    have hr := ih (fun s hs => h s (List.mem_cons_of_mem _ hs))
    have h1 : f head * m ≤ f head * g head := mul_le_mul_of_nonneg_left hh.2 hh.1
    simp only [List.map_cons, List.sum_cons, add_mul]
    exact add_le_add h1 hr

theorem power32_of_exact (s : source32) (h : exact_power s) :
    power32 s = .fin (s.current.val * s.voltage.val) := by
  obtain ⟨hc, hv, hrep⟩ := h
  unfold power32
  cases hcur : s.current with
  | fin c =>
    cases hvol : s.voltage with
    | fin v =>
      rw [hcur, hvol] at hrep
      simpa [F32.mul, F32.val, representable] using hrep
    | pinf => rw [hvol] at hv; exact absurd hv (by simp [F32.finite])
    | ninf => rw [hvol] at hv; exact absurd hv (by simp [F32.finite])
    | nan => rw [hvol] at hv; exact absurd hv (by simp [F32.finite])
  | pinf => rw [hcur] at hc; exact absurd hc (by simp [F32.finite])
  | ninf => rw [hcur] at hc; exact absurd hc (by simp [F32.finite])
  | nan => rw [hcur] at hc; exact absurd hc (by simp [F32.finite])

theorem val_le_of_le (a b : F32) (ha : a.finite) (hb : b.finite) (h : F32.le a b = true) :
    a.val ≤ b.val := by
  cases a <;> cases b <;> simp_all [F32.finite, F32.le, F32.val]

theorem val_nonneg_of_nonneg (a : F32) (h : F32.le (.fin 0) a = true) : 0 ≤ a.val := by
  cases a <;> simp_all [F32.le, F32.val]

/-! Properties of the aggregation rules -/

/-- C1 (as stated, refuted): the parallel composite of the single panel `panel(1, 2000000)`
has `voltage()` 1000000, while the minimum of `voltage()` over its children is 2000000. -/
theorem parallel_voltage_ne_minimum_above_seed :
    [source.panel 1 2000000] ≠ [] ∧
    (source.parallel [source.panel 1 2000000]).voltage = 1000000 ∧
    (List.map source.voltage [source.panel 1 2000000]).minimum = ((2000000 : ℚ) : WithTop ℚ) ∧
    (List.map source.voltage [source.panel 1 2000000]).minimum
      ≠ (((source.parallel [source.panel 1 2000000]).voltage : ℚ) : WithTop ℚ) := by
  refine ⟨by simp, ?_, ?_, ?_⟩
  · norm_num [source.voltage, parallel_voltage_acc, std_min]
  · simp [source.voltage]
  · norm_num [source.voltage, parallel_voltage_acc, std_min]

/-- C1 (amended): for every list `S` of child sources in which at least one child has
`voltage()` at most 1000000 (such a list is non-empty), the `voltage()` of the parallel
composite built from `S` is the minimum of `s.voltage()` over the children `s` in `S`. -/
theorem parallel_voltage_eq_minimum (S : List source)
    (h : ∃ s ∈ S, s.voltage ≤ 1000000) :
    (S.map source.voltage).minimum = (((source.parallel S).voltage : ℚ) : WithTop ℚ) := by
  obtain ⟨s, hs, hle⟩ := h
  rw [parallel_voltage_eq]
  symm
  apply min_eq_right
  have h1 : (S.map source.voltage).minimum ≤ ((s.voltage : ℚ) : WithTop ℚ) :=
    List.minimum_le_of_mem' (List.mem_map_of_mem _ hs)
  exact le_trans h1 (WithTop.coe_le_coe.mpr hle)

/-- C1 (amended), at the two-panel parallel composite of `panel(5.44, 18.4)` and
`panel(3.11, 17.4)`. -/
theorem parallel_voltage_eq_minimum_witness :
    (∃ s ∈ [source.panel 5.44 18.4, source.panel 3.11 17.4], s.voltage ≤ 1000000) ∧
    (List.map source.voltage [source.panel 5.44 18.4, source.panel 3.11 17.4]).minimum
      = (((source.parallel [source.panel 5.44 18.4, source.panel 3.11 17.4]).voltage : ℚ)
          : WithTop ℚ) :=
  ⟨⟨source.panel 5.44 18.4, by simp, by norm_num [source.voltage]⟩,
   parallel_voltage_eq_minimum _ ⟨source.panel 5.44 18.4, by simp, by norm_num [source.voltage]⟩⟩

/-- C2 (as stated, refuted): the series composite of the single panel `panel(2000000, 1)`
has `current()` 1000000, while the minimum of `current()` over its children is 2000000. -/
theorem serial_current_ne_minimum_above_seed :
    [source.panel 2000000 1] ≠ [] ∧
    (source.serial [source.panel 2000000 1]).current = 1000000 ∧
    (List.map source.current [source.panel 2000000 1]).minimum = ((2000000 : ℚ) : WithTop ℚ) ∧
    (List.map source.current [source.panel 2000000 1]).minimum
      ≠ (((source.serial [source.panel 2000000 1]).current : ℚ) : WithTop ℚ) := by
  refine ⟨by simp, ?_, ?_, ?_⟩
  · norm_num [source.current, serial_current_acc, std_min]
  · simp [source.current]
  · norm_num [source.current, serial_current_acc, std_min]

/-- C2 (amended): for every list `S` of child sources in which at least one child has
`current()` at most 1000000 (such a list is non-empty), the `current()` of the series
composite built from `S` is the minimum of `s.current()` over the children `s` in `S`. -/
theorem serial_current_eq_minimum (S : List source)
    (h : ∃ s ∈ S, s.current ≤ 1000000) :
    (S.map source.current).minimum = (((source.serial S).current : ℚ) : WithTop ℚ) := by
  obtain ⟨s, hs, hle⟩ := h
  rw [serial_current_eq]
  symm
  apply min_eq_right
  have h1 : (S.map source.current).minimum ≤ ((s.current : ℚ) : WithTop ℚ) :=
    List.minimum_le_of_mem' (List.mem_map_of_mem _ hs)
  exact le_trans h1 (WithTop.coe_le_coe.mpr hle)

/-- C2 (amended), at the series composite of `panel(12.6, 17.52)` and a parallel pair of
`panel(5.44, 18.4)`. -/
theorem serial_current_eq_minimum_witness :
    (∃ s ∈ [source.panel 12.6 17.52,
            source.parallel [source.panel 5.44 18.4, source.panel 5.44 18.4]],
        s.current ≤ 1000000) ∧
    (List.map source.current [source.panel 12.6 17.52,
        source.parallel [source.panel 5.44 18.4, source.panel 5.44 18.4]]).minimum
      = (((source.serial [source.panel 12.6 17.52,
            source.parallel [source.panel 5.44 18.4, source.panel 5.44 18.4]]).current : ℚ)
          : WithTop ℚ) :=
  ⟨⟨source.panel 12.6 17.52, by simp, by norm_num [source.current]⟩,
   serial_current_eq_minimum _ ⟨source.panel 12.6 17.52, by simp, by norm_num [source.current]⟩⟩

/-- C3 (as stated, refuted): 16777216 and 1 are `float` values, and the parallel composite of
`panel(16777216, 1)` and `panel(1, 1)` has `current()` 16777216, while the exact sum of the
children's `current()` is 16777217. -/
theorem parallel_current32_ne_sum :
    (representable 16777216 ∧ representable 1) ∧
    (source32.parallel [.panel (.fin 16777216) (.fin 1), .panel (.fin 1) (.fin 1)]).current
      = .fin 16777216 ∧
    ((List.map source32.current
        [.panel (.fin 16777216) (.fin 1), .panel (.fin 1) (.fin 1)]).map F32.val).sum
      = 16777217 ∧
    (source32.parallel [.panel (.fin 16777216) (.fin 1), .panel (.fin 1) (.fin 1)]).current
      ≠ .fin ((List.map source32.current
        [.panel (.fin 16777216) (.fin 1), .panel (.fin 1) (.fin 1)]).map F32.val).sum := by
  refine ⟨⟨by decide!, by decide!⟩, by decide!, ?_, by decide!⟩
  norm_num [source32.current, F32.val]

/-- C3 (amended): for every list `S` of child sources for which no addition of the
left-to-right sum of the `current()` values rounds (every value is finite and every partial
sum is a `float` value), the `current()` of the parallel composite built from `S` is the
exact sum of `s.current()` over the entries of `S`, each entry counted as often as it
occurs. -/
theorem parallel_current32_eq_sum (S : List source32)
    (h : exact_sums (S.map source32.current) 0) :
    (source32.parallel S).current = .fin ((S.map source32.current).map F32.val).sum :=
  parallel_current32_exact S h

/-- C3 (amended), at the four references to `panel(3.25, 17.5)`. -/
theorem parallel_current32_eq_sum_witness :
    exact_sums (List.map source32.current
      [.panel (.fin 3.25) (.fin 17.5), .panel (.fin 3.25) (.fin 17.5),
       .panel (.fin 3.25) (.fin 17.5), .panel (.fin 3.25) (.fin 17.5)]) 0 ∧
    (source32.parallel
      [.panel (.fin 3.25) (.fin 17.5), .panel (.fin 3.25) (.fin 17.5),
       .panel (.fin 3.25) (.fin 17.5), .panel (.fin 3.25) (.fin 17.5)]).current
      = .fin ((List.map source32.current
      [.panel (.fin 3.25) (.fin 17.5), .panel (.fin 3.25) (.fin 17.5),
       .panel (.fin 3.25) (.fin 17.5), .panel (.fin 3.25) (.fin 17.5)]).map F32.val).sum :=
  ⟨⟨trivial, by decide!, trivial, by decide!, trivial, by decide!, trivial, by decide!, trivial⟩,
   parallel_current32_eq_sum _
    ⟨trivial, by decide!, trivial, by decide!, trivial, by decide!, trivial, by decide!, trivial⟩⟩

/-- C4 (as stated, refuted): 16777216 and 1 are `float` values, and the series composite of
`panel(1, 16777216)` and `panel(1, 1)` has `voltage()` 16777216, while the exact sum of the
children's `voltage()` is 16777217. -/
theorem serial_voltage32_ne_sum :
    (representable 16777216 ∧ representable 1) ∧
    (source32.serial [.panel (.fin 1) (.fin 16777216), .panel (.fin 1) (.fin 1)]).voltage
      = .fin 16777216 ∧
    ((List.map source32.voltage
        [.panel (.fin 1) (.fin 16777216), .panel (.fin 1) (.fin 1)]).map F32.val).sum
      = 16777217 ∧
    (source32.serial [.panel (.fin 1) (.fin 16777216), .panel (.fin 1) (.fin 1)]).voltage
      ≠ .fin ((List.map source32.voltage
        [.panel (.fin 1) (.fin 16777216), .panel (.fin 1) (.fin 1)]).map F32.val).sum := by
  refine ⟨⟨by decide!, by decide!⟩, by decide!, ?_, by decide!⟩
  norm_num [source32.voltage, F32.val]

/-- C4 (amended): for every list `S` of child sources for which no addition of the
left-to-right sum of the `voltage()` values rounds (every value is finite and every partial
sum is a `float` value), the `voltage()` of the series composite built from `S` is the exact
sum of `s.voltage()` over the entries of `S`, each entry counted as often as it occurs. -/
theorem serial_voltage32_eq_sum (S : List source32)
    (h : exact_sums (S.map source32.voltage) 0) :
    (source32.serial S).voltage = .fin ((S.map source32.voltage).map F32.val).sum :=
  serial_voltage32_exact S h

/-- C4 (amended), at the four references to `panel(3.25, 17.5)`. -/
theorem serial_voltage32_eq_sum_witness :
    exact_sums (List.map source32.voltage
      [.panel (.fin 3.25) (.fin 17.5), .panel (.fin 3.25) (.fin 17.5),
       .panel (.fin 3.25) (.fin 17.5), .panel (.fin 3.25) (.fin 17.5)]) 0 ∧
    (source32.serial
      [.panel (.fin 3.25) (.fin 17.5), .panel (.fin 3.25) (.fin 17.5),
       .panel (.fin 3.25) (.fin 17.5), .panel (.fin 3.25) (.fin 17.5)]).voltage
      = .fin ((List.map source32.voltage
      [.panel (.fin 3.25) (.fin 17.5), .panel (.fin 3.25) (.fin 17.5),
       .panel (.fin 3.25) (.fin 17.5), .panel (.fin 3.25) (.fin 17.5)]).map F32.val).sum :=
  ⟨⟨trivial, by decide!, trivial, by decide!, trivial, by decide!, trivial, by decide!, trivial⟩,
   serial_voltage32_eq_sum _
    ⟨trivial, by decide!, trivial, by decide!, trivial, by decide!, trivial, by decide!, trivial⟩⟩

/-- C5: the composites with zero children evaluate to the fold seeds: the empty parallel
composite has `voltage()` 1000000 and `current()` 0, the empty series composite has
`current()` 1000000 and `voltage()` 0. -/
theorem empty_composite_seeds :
    (source.parallel []).voltage = 1000000 ∧ (source.parallel []).current = 0 ∧
    (source.serial []).current = 1000000 ∧ (source.serial []).voltage = 0 := by
  refine ⟨?_, ?_, ?_, ?_⟩
  · simp [source.voltage, parallel_voltage_acc]
  · simp [source.current, parallel_current_acc]
  · simp [source.current, serial_current_acc]
  · simp [source.voltage, serial_voltage_acc]

/-- C6 (as stated, refuted): for the series composite of four references to
`panel(3.11, 17.4)` it is not the case that `voltage()` is 69.6, `current()` is 3.11 and the
power is 216.576. -/
theorem _4s_kc50t_power_ne :
    ¬ (_4s_kc50t.voltage = 69.6 ∧ _4s_kc50t.current = 3.11 ∧ power _4s_kc50t = 216.576) := by
  norm_num [power, _4s_kc50t, kc50t, source.voltage, source.current, serial_voltage_acc,
    serial_current_acc, std_min]

/-- C6 (amended): for the series composite of four references to `panel(3.11, 17.4)`,
`voltage()` is 69.6, `current()` is 3.11 and the power is 216.456. -/
theorem _4s_kc50t_values :
    _4s_kc50t.voltage = 69.6 ∧ _4s_kc50t.current = 3.11 ∧ power _4s_kc50t = 216.456 := by
  norm_num [power, _4s_kc50t, kc50t, source.voltage, source.current, serial_voltage_acc,
    serial_current_acc, std_min]

/-- C7: for all sources `a`, `b`, `c`, the series composite of (the series composite of `a`,
`b`) and `c` has the same `voltage()` and `current()` as the series composite of `a`, `b`,
`c`, and likewise for parallel composites. -/
theorem nesting_assoc (a b c : source) :
    ((source.serial [source.serial [a, b], c]).voltage = (source.serial [a, b, c]).voltage ∧
     (source.serial [source.serial [a, b], c]).current = (source.serial [a, b, c]).current) ∧
    ((source.parallel [source.parallel [a, b], c]).voltage
        = (source.parallel [a, b, c]).voltage ∧
     (source.parallel [source.parallel [a, b], c]).current
        = (source.parallel [a, b, c]).current) := by
  refine ⟨⟨?_, ?_⟩, ?_, ?_⟩
  · simp [source.voltage, serial_voltage_acc]
  · simp only [source.current, serial_current_acc, std_min_eq_min]
    rw [min_eq_right (le_trans (min_le_left _ _) (min_le_left _ _))]
  · simp only [source.voltage, parallel_voltage_acc, std_min_eq_min]
    rw [min_eq_right (le_trans (min_le_left _ _) (min_le_left _ _))]
  · simp [source.current, parallel_current_acc]

/-- C8: an empty composite is an identity element under same-type nesting: for all lists
`xs`, `ys`, inserting an empty parallel composite between `xs` and `ys` in a parallel
composite changes neither `voltage()` nor `current()`, and inserting an empty series composite
between `xs` and `ys` in a series composite changes neither `current()` nor `voltage()`. -/
theorem empty_composite_identity (xs ys : List source) :
    ((source.parallel (xs ++ [source.parallel []] ++ ys)).voltage
        = (source.parallel (xs ++ ys)).voltage ∧
     (source.parallel (xs ++ [source.parallel []] ++ ys)).current
        = (source.parallel (xs ++ ys)).current) ∧
    ((source.serial (xs ++ [source.serial []] ++ ys)).current
        = (source.serial (xs ++ ys)).current ∧
     (source.serial (xs ++ [source.serial []] ++ ys)).voltage
        = (source.serial (xs ++ ys)).voltage) := by
  refine ⟨⟨?_, ?_⟩, ?_, ?_⟩
  · simp only [source.voltage, parallel_voltage_acc_append, parallel_voltage_acc,
      std_min_eq_min]
    rw [min_eq_left (parallel_voltage_acc_le xs 1000000)]
  · rw [parallel_current_eq, parallel_current_eq]
    simp [source.current, parallel_current_acc]
  · simp only [source.current, serial_current_acc_append, serial_current_acc,
      std_min_eq_min]
    rw [min_eq_left (serial_current_acc_le xs 1000000)]
  · rw [serial_voltage_eq, serial_voltage_eq]
    simp [source.voltage, serial_voltage_acc]

/-- C10: the power of an empty composite is 0, for the empty parallel composite and for the
empty series composite. -/
theorem power_empty_composite :
    power (source.parallel []) = 0 ∧ power (source.serial []) = 0 := by
  constructor
  · simp [power, source.current, parallel_current_acc]
  · simp [power, source.voltage, serial_voltage_acc]

/-- C12 (as stated, refuted): the children `panel(16777216, 1)`, `panel(1, 1)`, `panel(1, 1)`
in this order give the parallel composite `current()` 16777216, and in the order
`panel(1, 1)`, `panel(1, 1)`, `panel(16777216, 1)` they give it `current()` 16777218. -/
theorem parallel_current32_order :
    ([source32.panel (.fin 1) (.fin 1), .panel (.fin 1) (.fin 1),
        .panel (.fin 16777216) (.fin 1)].Perm
      [.panel (.fin 16777216) (.fin 1), .panel (.fin 1) (.fin 1), .panel (.fin 1) (.fin 1)]) ∧
    (source32.parallel [.panel (.fin 16777216) (.fin 1), .panel (.fin 1) (.fin 1),
        .panel (.fin 1) (.fin 1)]).current = .fin 16777216 ∧
    (source32.parallel [.panel (.fin 1) (.fin 1), .panel (.fin 1) (.fin 1),
        .panel (.fin 16777216) (.fin 1)]).current = .fin 16777218 ∧
    (source32.parallel [.panel (.fin 1) (.fin 1), .panel (.fin 1) (.fin 1),
        .panel (.fin 16777216) (.fin 1)]).current
      ≠ (source32.parallel [.panel (.fin 16777216) (.fin 1), .panel (.fin 1) (.fin 1),
        .panel (.fin 1) (.fin 1)]).current := by
  refine ⟨?_, by decide!, by decide!, by decide!⟩
  exact @List.perm_append_comm source32
    [source32.panel (.fin 1) (.fin 1), source32.panel (.fin 1) (.fin 1)]
    [source32.panel (.fin 16777216) (.fin 1)]

/-- C12 (amended): when `T` is a permutation of `S`, the parallel composites of `T` and of `S`
have the same `voltage()` and the series composites of `T` and of `S` have the same
`current()`; the parallel composites have the same `current()`, and the series composites
the same `voltage()`, whenever no addition rounds in either order. -/
theorem composite32_perm_invariant (S T : List source32) (h : T.Perm S) :
    ((source32.parallel T).voltage = (source32.parallel S).voltage ∧
     (source32.serial T).current = (source32.serial S).current) ∧
    (exact_sums (S.map source32.current) 0 → exact_sums (T.map source32.current) 0 →
      (source32.parallel T).current = (source32.parallel S).current) ∧
    (exact_sums (S.map source32.voltage) 0 → exact_sums (T.map source32.voltage) 0 →
      (source32.serial T).voltage = (source32.serial S).voltage) := by
  refine ⟨⟨?_, ?_⟩, ?_, ?_⟩
  · rw [parallel_voltage32_eq, parallel_voltage32_eq]
    exact foldl_std_min32_perm (h.map _) _
  · rw [serial_current32_eq, serial_current32_eq]
    exact foldl_std_min32_perm (h.map _) _
  · intro hS hT
    rw [parallel_current32_exact S hS, parallel_current32_exact T hT]
    exact congrArg F32.fin ((h.map _).map _).sum_eq
  · intro hS hT
    rw [serial_voltage32_exact S hS, serial_voltage32_exact T hT]
    exact congrArg F32.fin ((h.map _).map _).sum_eq

/-- C12 (amended), at the children `panel(5.5, 18.5)`, `panel(3.25, 17.5)` and their swap. -/
theorem composite32_perm_invariant_witness :
    ([source32.panel (.fin 3.25) (.fin 17.5), .panel (.fin 5.5) (.fin 18.5)].Perm
      [.panel (.fin 5.5) (.fin 18.5), .panel (.fin 3.25) (.fin 17.5)]) ∧
    (exact_sums (List.map source32.current
        [.panel (.fin 5.5) (.fin 18.5), .panel (.fin 3.25) (.fin 17.5)]) 0 ∧
     exact_sums (List.map source32.current
        [.panel (.fin 3.25) (.fin 17.5), .panel (.fin 5.5) (.fin 18.5)]) 0 ∧
     exact_sums (List.map source32.voltage
        [.panel (.fin 5.5) (.fin 18.5), .panel (.fin 3.25) (.fin 17.5)]) 0 ∧
     exact_sums (List.map source32.voltage
        [.panel (.fin 3.25) (.fin 17.5), .panel (.fin 5.5) (.fin 18.5)]) 0) ∧
    (((source32.parallel [.panel (.fin 3.25) (.fin 17.5), .panel (.fin 5.5) (.fin 18.5)]).voltage
        = (source32.parallel
            [.panel (.fin 5.5) (.fin 18.5), .panel (.fin 3.25) (.fin 17.5)]).voltage ∧
      (source32.serial [.panel (.fin 3.25) (.fin 17.5), .panel (.fin 5.5) (.fin 18.5)]).current
        = (source32.serial
            [.panel (.fin 5.5) (.fin 18.5), .panel (.fin 3.25) (.fin 17.5)]).current) ∧
     (source32.parallel [.panel (.fin 3.25) (.fin 17.5), .panel (.fin 5.5) (.fin 18.5)]).current
        = (source32.parallel
            [.panel (.fin 5.5) (.fin 18.5), .panel (.fin 3.25) (.fin 17.5)]).current ∧
     (source32.serial [.panel (.fin 3.25) (.fin 17.5), .panel (.fin 5.5) (.fin 18.5)]).voltage
        = (source32.serial
            [.panel (.fin 5.5) (.fin 18.5), .panel (.fin 3.25) (.fin 17.5)]).voltage) :=
  have hc1 : exact_sums (List.map source32.current
      [.panel (.fin 5.5) (.fin 18.5), .panel (.fin 3.25) (.fin 17.5)]) 0 :=
    ⟨trivial, by decide!, trivial, by decide!, trivial⟩
  have hc2 : exact_sums (List.map source32.current
      [.panel (.fin 3.25) (.fin 17.5), .panel (.fin 5.5) (.fin 18.5)]) 0 :=
    ⟨trivial, by decide!, trivial, by decide!, trivial⟩
  have hv1 : exact_sums (List.map source32.voltage
      [.panel (.fin 5.5) (.fin 18.5), .panel (.fin 3.25) (.fin 17.5)]) 0 :=
    ⟨trivial, by decide!, trivial, by decide!, trivial⟩
  have hv2 : exact_sums (List.map source32.voltage
      [.panel (.fin 3.25) (.fin 17.5), .panel (.fin 5.5) (.fin 18.5)]) 0 :=
    ⟨trivial, by decide!, trivial, by decide!, trivial⟩
  ⟨List.Perm.swap _ _ _, ⟨hc1, hc2, hv1, hv2⟩,
   (composite32_perm_invariant _ _ (List.Perm.swap _ _ _)).1,
   (composite32_perm_invariant _ _ (List.Perm.swap _ _ _)).2.1 hc1 hc2,
   (composite32_perm_invariant _ _ (List.Perm.swap _ _ _)).2.2 hv1 hv2⟩

/-- C13: the series composite is the dual of the parallel composite with current and
voltage swapped: for every source tree `t`, the dual tree has `current()` equal to
`t.voltage()`, `voltage()` equal to `t.current()`, and the same power as `t`. -/
theorem dual_swaps_current_voltage (t : source) :
    t.dual.current = t.voltage ∧ t.dual.voltage = t.current ∧ power t.dual = power t := by
  have h := dual_swaps t
  refine ⟨h.1, h.2, ?_⟩
  rw [power, power, h.1, h.2, mul_comm]

/-- C14: for every panel constructed with `(c, v)`, whatever the sign of the values,
`current()` is `c` and `voltage()` is `v`; every pair of values gives a panel. -/
theorem panel_ratings (c v : ℚ) :
    (source.panel c v).current = c ∧ (source.panel c v).voltage = v := by
  constructor
  · simp [source.current]
  · simp [source.voltage]

/-- C15: evaluation is total on every finite source tree: run with a budget of nested
calls of at least the nesting depth of the tree, `current()`, `voltage()` and `power` return,
and they return the values of the recursive definitions `source.current`, `source.voltage`
and `power`. -/
theorem evaluation_total (t : source) (n : Nat) (h : t.depth ≤ n) :
    current_within n t = some t.current ∧ voltage_within n t = some t.voltage ∧
    power_within n t = some (power t) := by
  have hw := within_eq t n h
  refine ⟨hw.1, hw.2, ?_⟩
  simp [power_within, hw.1, hw.2, power]

/-- C15, at the tree `_2s_2s_1_sun100_2p_kc50t` of `main`, of nesting depth 4. -/
theorem evaluation_total_witness :
    _2s_2s_1_sun100_2p_kc50t.depth ≤ 4 ∧
    (current_within 4 _2s_2s_1_sun100_2p_kc50t = some _2s_2s_1_sun100_2p_kc50t.current ∧
     voltage_within 4 _2s_2s_1_sun100_2p_kc50t = some _2s_2s_1_sun100_2p_kc50t.voltage ∧
     power_within 4 _2s_2s_1_sun100_2p_kc50t = some (power _2s_2s_1_sun100_2p_kc50t)) :=
  ⟨by decide, evaluation_total _ 4 (by decide)⟩

/-- C16: the seed caps every minimum fold: for every list `S` of child sources, the
`voltage()` of the parallel composite and the `current()` of the series composite are at
most 1000000, and they are the smaller of 1000000 and the minimum over the children (the
minimum of no children being no bound at all). -/
theorem min_fold_capped_by_seed (S : List source) :
    ((source.parallel S).voltage ≤ 1000000 ∧ (source.serial S).current ≤ 1000000) ∧
    ((((source.parallel S).voltage : ℚ) : WithTop ℚ)
        = min ((1000000 : ℚ) : WithTop ℚ) (S.map source.voltage).minimum ∧
     (((source.serial S).current : ℚ) : WithTop ℚ)
        = min ((1000000 : ℚ) : WithTop ℚ) (S.map source.current).minimum) :=
  ⟨⟨parallel_voltage_le S, serial_current_le S⟩, parallel_voltage_eq S, serial_current_eq S⟩

/-- C17 (as stated, refuted): 2, 3 and 8388607 are `float` values, and the parallel
composite of `panel(2, 3)` and `panel(8388607, 3)` has power 25165828, while the powers of
its children, 6 and 25165820, sum to 25165826, exactly and in `float`. -/
theorem composite_power32_gt_sum :
    (representable 2 ∧ representable 3 ∧ representable 8388607) ∧
    (∀ s ∈ [source32.panel (.fin 2) (.fin 3), .panel (.fin 8388607) (.fin 3)],
      F32.le (.fin 0) s.current = true ∧ F32.le (.fin 0) s.voltage = true) ∧
    power32 (.parallel [.panel (.fin 2) (.fin 3), .panel (.fin 8388607) (.fin 3)])
      = .fin 25165828 ∧
    List.map power32 [.panel (.fin 2) (.fin 3), .panel (.fin 8388607) (.fin 3)]
      = [.fin 6, .fin 25165820] ∧
    List.foldl F32.add (.fin 0) [.fin 6, .fin 25165820] = .fin 25165826 ∧
    F32.le (power32 (.parallel [.panel (.fin 2) (.fin 3), .panel (.fin 8388607) (.fin 3)]))
      (.fin 25165826) = false := by
  refine ⟨⟨by decide!, by decide!, by decide!⟩, ?_, by decide!, by decide!, by decide!,
    by decide!⟩
  intro s hs
  simp only [List.mem_cons, List.mem_singleton, List.not_mem_nil, or_false] at hs
  rcases hs with rfl | rfl <;> constructor <;> decide!

/-- C17 (amended): when every child in `S` has `current() ≥ 0` and `voltage() ≥ 0` and
every child's product `current() * voltage()` is exact, the power of the parallel composite
of `S` is at most the sum of the powers of the children whenever its sum of currents and its
product are exact, and the power of the series composite of `S` is at most that sum whenever
its sum of voltages and its product are exact. -/
theorem composite_power32_le_sum (S : List source32)
    (h0 : ∀ s ∈ S, F32.le (.fin 0) s.current = true ∧ F32.le (.fin 0) s.voltage = true)
    (hch : ∀ s ∈ S, exact_power s) :
    (exact_sums (S.map source32.current) 0 → exact_power (.parallel S) →
      F32.le (power32 (.parallel S)) (.fin ((S.map power32).map F32.val).sum) = true) ∧
    (exact_sums (S.map source32.voltage) 0 → exact_power (.serial S) →
      F32.le (power32 (.serial S)) (.fin ((S.map power32).map F32.val).sum) = true) := by
  have hsum : ((S.map power32).map F32.val).sum
      = (S.map (fun s => s.current.val * s.voltage.val)).sum := by
    rw [List.map_map]
    congr 1
    apply List.map_congr_left
    intro s hs
    simp [Function.comp, power32_of_exact s (hch s hs), F32.val]
  constructor
  · intro hs hp
    rw [power32_of_exact _ hp, hsum]
    simp only [F32.le, decide_eq_true_eq]
    rw [parallel_current32_exact S hs, F32.val, List.map_map]
    apply sum_mul_le_sum_mul
    intro s hmem
    refine ⟨val_nonneg_of_nonneg _ (h0 s hmem).1, ?_⟩
    apply val_le_of_le _ _ hp.2.1 (hch s hmem).2.1
    rw [parallel_voltage32_eq]
    exact foldl_std_min32_le_of_mem _ _ _ (by simp)
      (ne_nan_of_nonneg _ (h0 s hmem).2) (List.mem_map_of_mem _ hmem)
  · intro hs hp
    rw [power32_of_exact _ hp, hsum]
    simp only [F32.le, decide_eq_true_eq]
    rw [serial_voltage32_exact S hs, F32.val, List.map_map, mul_comm]
    have hcomm : (S.map (fun s => s.current.val * s.voltage.val))
        = S.map (fun s => s.voltage.val * s.current.val) :=
      List.map_congr_left (fun s _ => mul_comm _ _)
    rw [hcomm]
    apply sum_mul_le_sum_mul
    intro s hmem
    refine ⟨val_nonneg_of_nonneg _ (h0 s hmem).2, ?_⟩
    apply val_le_of_le _ _ hp.1 (hch s hmem).1
    rw [serial_current32_eq]
    exact foldl_std_min32_le_of_mem _ _ _ (by simp)
      (ne_nan_of_nonneg _ (h0 s hmem).1) (List.mem_map_of_mem _ hmem)

/-- C17 (amended), at the mismatched pair `panel(3.25, 17.5)`, `panel(5.5, 18.5)`. -/
theorem composite_power32_le_sum_witness :
    ((∀ s ∈ [source32.panel (.fin 3.25) (.fin 17.5), .panel (.fin 5.5) (.fin 18.5)],
        F32.le (.fin 0) s.current = true ∧ F32.le (.fin 0) s.voltage = true) ∧
     (∀ s ∈ [source32.panel (.fin 3.25) (.fin 17.5), .panel (.fin 5.5) (.fin 18.5)],
        exact_power s) ∧
     (exact_sums (List.map source32.current
        [.panel (.fin 3.25) (.fin 17.5), .panel (.fin 5.5) (.fin 18.5)]) 0 ∧
      exact_power (.parallel [.panel (.fin 3.25) (.fin 17.5), .panel (.fin 5.5) (.fin 18.5)])) ∧
     (exact_sums (List.map source32.voltage
        [.panel (.fin 3.25) (.fin 17.5), .panel (.fin 5.5) (.fin 18.5)]) 0 ∧
      exact_power (.serial [.panel (.fin 3.25) (.fin 17.5), .panel (.fin 5.5) (.fin 18.5)]))) ∧
    (F32.le (power32 (.parallel [.panel (.fin 3.25) (.fin 17.5), .panel (.fin 5.5) (.fin 18.5)]))
        (.fin ((List.map power32
          [.panel (.fin 3.25) (.fin 17.5), .panel (.fin 5.5) (.fin 18.5)]).map F32.val).sum)
        = true ∧
     F32.le (power32 (.serial [.panel (.fin 3.25) (.fin 17.5), .panel (.fin 5.5) (.fin 18.5)]))
        (.fin ((List.map power32
          [.panel (.fin 3.25) (.fin 17.5), .panel (.fin 5.5) (.fin 18.5)]).map F32.val).sum)
        = true) :=
  ⟨⟨by decide!, by decide!, ⟨by decide!, by decide!⟩, ⟨by decide!, by decide!⟩⟩,
   (composite_power32_le_sum _ (by decide!) (by decide!)).1 (by decide!) (by decide!),
   (composite_power32_le_sum _ (by decide!) (by decide!)).2 (by decide!) (by decide!)⟩

/-- C18 (as stated, refuted): `0.1f = 13421773 / 134217728` is a `float` value at most
1000000, and the series composite of 10 references to `panel(0.1f, 0.1f)` has `voltage()`
`8388609 / 8388608`, which is neither the exact product `10 * 0.1f` nor its `float`
product. -/
theorem replicate32_voltage_ne :
    representable (13421773 / 134217728) ∧ (13421773 / 134217728 : ℚ) ≤ 1000000 ∧
    (source32.serial (List.replicate 10
        (.panel (.fin (13421773 / 134217728)) (.fin (13421773 / 134217728))))).voltage
      = .fin (8388609 / 8388608) ∧
    (source32.serial (List.replicate 10
        (.panel (.fin (13421773 / 134217728)) (.fin (13421773 / 134217728))))).voltage
      ≠ .fin ((10 : Nat) * (13421773 / 134217728)) ∧
    (source32.serial (List.replicate 10
        (.panel (.fin (13421773 / 134217728)) (.fin (13421773 / 134217728))))).voltage
      ≠ F32.mul (.fin 10) (.fin (13421773 / 134217728)) := by
  refine ⟨by decide!, by norm_num, by decide!, by decide!, by decide!⟩

/-- C18 (amended): for every `n ≥ 1` and every panel `p = panel(c, v)` with finite
`c ≤ 1000000` and `v ≤ 1000000`, the series composite of `n` references to `p` has
`current()` `c` and the parallel composite has `voltage()` `v`; the series composite has
`voltage()` `n * v` when every multiple `k * v`, `k ≤ n`, is a `float` value, the parallel
composite has `current()` `n * c` when every multiple `k * c`, `k ≤ n`, is a `float` value,
and when moreover `c * v` and `n * c * v` are `float` values both composites have the power
`n * c * v`, which is `n * power(p)`. -/
theorem replicate32_composites (n : Nat) (c v : ℚ)
    (hn : 1 ≤ n) (hc : c ≤ 1000000) (hv : v ≤ 1000000) :
    ((source32.serial (List.replicate n (.panel (.fin c) (.fin v)))).current = .fin c ∧
     (source32.parallel (List.replicate n (.panel (.fin c) (.fin v)))).voltage = .fin v) ∧
    ((∀ k : Nat, k ≤ n → representable (k * v)) →
      (source32.serial (List.replicate n (.panel (.fin c) (.fin v)))).voltage
        = .fin (n * v)) ∧
    ((∀ k : Nat, k ≤ n → representable (k * c)) →
      (source32.parallel (List.replicate n (.panel (.fin c) (.fin v)))).current
        = .fin (n * c)) ∧
    ((∀ k : Nat, k ≤ n → representable (k * v)) →
      (∀ k : Nat, k ≤ n → representable (k * c)) →
      representable (c * v) → representable (n * c * v) →
      power32 (.serial (List.replicate n (.panel (.fin c) (.fin v)))) = .fin (n * c * v) ∧
      power32 (.parallel (List.replicate n (.panel (.fin c) (.fin v)))) = .fin (n * c * v) ∧
      (n : ℚ) * c * v = n * (power32 (.panel (.fin c) (.fin v))).val) := by
  obtain ⟨k, rfl⟩ : ∃ k, n = k + 1 := ⟨n - 1, by omega⟩
  have hsc : (source32.serial (List.replicate (k + 1) (.panel (.fin c) (.fin v)))).current
      = .fin c := by
    rw [serial_current32_eq, List.map_replicate, foldl_std_min32_replicate,
      source32.current, std_min32_fin_fin, min_eq_right hc]
  have hpv : (source32.parallel (List.replicate (k + 1) (.panel (.fin c) (.fin v)))).voltage
      = .fin v := by
    rw [parallel_voltage32_eq, List.map_replicate, foldl_std_min32_replicate,
      source32.voltage, std_min32_fin_fin, min_eq_right hv]
  have hsv : (∀ j : Nat, j ≤ k + 1 → representable (j * v)) →
      (source32.serial (List.replicate (k + 1) (.panel (.fin c) (.fin v)))).voltage
        = .fin (((k + 1 : Nat) : ℚ) * v) := by
    intro h
    have hex : exact_sums (List.replicate (k + 1) (F32.fin v)) ((0 : Nat) * v) :=
      exact_sums_replicate (k + 1) 0 v (fun j hj => h j (by omega))
    rw [serial_voltage32_eq, List.map_replicate, source32.voltage]
    rw [Nat.cast_zero, zero_mul] at hex
    rw [foldl_add32_exact _ _ hex]
    simp [F32.val]
  have hpc : (∀ j : Nat, j ≤ k + 1 → representable (j * c)) →
      (source32.parallel (List.replicate (k + 1) (.panel (.fin c) (.fin v)))).current
        = .fin (((k + 1 : Nat) : ℚ) * c) := by
    intro h
    have hex : exact_sums (List.replicate (k + 1) (F32.fin c)) ((0 : Nat) * c) :=
      exact_sums_replicate (k + 1) 0 c (fun j hj => h j (by omega))
    rw [parallel_current32_eq, List.map_replicate, source32.current]
    rw [Nat.cast_zero, zero_mul] at hex
    rw [foldl_add32_exact _ _ hex]
    simp [F32.val]
  refine ⟨⟨hsc, hpv⟩, hsv, hpc, ?_⟩
  intro h1 h2 h3 h4
  unfold representable at h3 h4
  refine ⟨?_, ?_, ?_⟩
  · rw [power32, hsc, hsv h1, F32.mul]
    rw [show c * (((k + 1 : Nat) : ℚ) * v) = ((k + 1 : Nat) : ℚ) * c * v by ring]
    exact h4
  · rw [power32, hpc h2, hpv, F32.mul]
    exact h4
  · rw [power32, source32.current, source32.voltage, F32.mul, h3, F32.val]
    ring

/-- C18 (amended), at four references to `panel(3.25, 17.5)`. -/
theorem replicate32_composites_witness :
    ((1 ≤ 4 ∧ (3.25 : ℚ) ≤ 1000000 ∧ (17.5 : ℚ) ≤ 1000000) ∧
     (∀ k : Nat, k ≤ 4 → representable (k * 17.5)) ∧
     (∀ k : Nat, k ≤ 4 → representable (k * 3.25)) ∧
     representable (3.25 * 17.5) ∧ representable ((4 : Nat) * 3.25 * 17.5)) ∧
    ((source32.serial (List.replicate 4 (.panel (.fin 3.25) (.fin 17.5)))).current = .fin 3.25 ∧
     (source32.parallel (List.replicate 4 (.panel (.fin 3.25) (.fin 17.5)))).voltage
        = .fin 17.5) ∧
    (source32.serial (List.replicate 4 (.panel (.fin 3.25) (.fin 17.5)))).voltage
        = .fin ((4 : Nat) * 17.5) ∧
    (source32.parallel (List.replicate 4 (.panel (.fin 3.25) (.fin 17.5)))).current
        = .fin ((4 : Nat) * 3.25) ∧
    (power32 (.serial (List.replicate 4 (.panel (.fin 3.25) (.fin 17.5))))
        = .fin ((4 : Nat) * 3.25 * 17.5) ∧
     power32 (.parallel (List.replicate 4 (.panel (.fin 3.25) (.fin 17.5))))
        = .fin ((4 : Nat) * 3.25 * 17.5) ∧
     ((4 : Nat) : ℚ) * 3.25 * 17.5
        = (4 : Nat) * (power32 (.panel (.fin 3.25) (.fin 17.5))).val) :=
  have hv : ∀ k : Nat, k ≤ 4 → representable (k * 17.5) := by
    intro k hk
    interval_cases k <;> decide!
  have hc : ∀ k : Nat, k ≤ 4 → representable (k * 3.25) := by
    intro k hk
    interval_cases k <;> decide!
  have h3 : representable (3.25 * 17.5) := by decide!
  have h4 : representable ((4 : Nat) * 3.25 * 17.5) := by decide!
  ⟨⟨⟨by norm_num, by norm_num, by norm_num⟩, hv, hc, h3, h4⟩,
   (replicate32_composites 4 3.25 17.5 (by norm_num) (by norm_num) (by norm_num)).1,
   (replicate32_composites 4 3.25 17.5 (by norm_num) (by norm_num) (by norm_num)).2.1 hv,
   (replicate32_composites 4 3.25 17.5 (by norm_num) (by norm_num) (by norm_num)).2.2.1 hc,
   (replicate32_composites 4 3.25 17.5 (by norm_num) (by norm_num) (by norm_num)).2.2.2
     hv hc h3 h4⟩

/-- C19 (as stated, refuted): the parallel composite of two references to
`panel(2^127, 0)` has leaves with current and voltage at least 0, `current()` +infinity and
`voltage()` 0, and its power is NaN, which is not at least 0. -/
theorem nonneg32_power_nan :
    representable (2 ^ 127) ∧
    (source32.parallel [.panel (.fin (2 ^ 127)) (.fin 0),
        .panel (.fin (2 ^ 127)) (.fin 0)]).leaves_nonneg ∧
    (source32.parallel [.panel (.fin (2 ^ 127)) (.fin 0),
        .panel (.fin (2 ^ 127)) (.fin 0)]).current = .pinf ∧
    (source32.parallel [.panel (.fin (2 ^ 127)) (.fin 0),
        .panel (.fin (2 ^ 127)) (.fin 0)]).voltage = .fin 0 ∧
    power32 (.parallel [.panel (.fin (2 ^ 127)) (.fin 0),
        .panel (.fin (2 ^ 127)) (.fin 0)]) = .nan ∧
    F32.le (.fin 0) (power32 (.parallel [.panel (.fin (2 ^ 127)) (.fin 0),
        .panel (.fin (2 ^ 127)) (.fin 0)])) = false := by
  refine ⟨by decide!, ?_, by decide!, by decide!, by decide!, by decide!⟩
  simp only [source32.leaves_nonneg, leaves_nonneg_list32]
  refine ⟨⟨by decide!, by decide!⟩, ⟨by decide!, by decide!⟩, trivial⟩

/-- C19 (amended): in a source tree whose panel leaves all have current and voltage at least
0, `current() ≥ 0` and `voltage() ≥ 0` hold at the root and at every sub-source, and the
power of a sub-source is at least 0 unless its `current()` and `voltage()` are +infinity and
0, in which case the power is NaN. -/
theorem nonneg32_preserved (t : source32) (h : t.leaves_nonneg) :
    (F32.le (.fin 0) t.current = true ∧ F32.le (.fin 0) t.voltage = true) ∧
    ∀ u ∈ t.subsources,
      F32.le (.fin 0) u.current = true ∧ F32.le (.fin 0) u.voltage = true ∧
      (¬ inf_times_zero u → F32.le (.fin 0) (power32 u) = true) ∧
      (inf_times_zero u → power32 u = .nan) := by
  refine ⟨nonneg_of_leaves_nonneg32 t h, ?_⟩
  intro u hu
  have hcv := nonneg_of_leaves_nonneg32 u (leaves_nonneg_of_mem_subsources32 t h u hu)
  refine ⟨hcv.1, hcv.2, ?_, ?_⟩
  · intro hex
    exact nonneg_mul32 _ _ hcv.1 hcv.2 hex
  · intro hex
    unfold power32
    rcases hex with ⟨h1, h2⟩ | ⟨h1, h2⟩
    · rw [h1, h2]
      exact mul32_pinf_zero.1
    · rw [h1, h2]
      exact mul32_pinf_zero.2

/-- C19 (amended), at the series composite of `panel(5.5, 18.5)` and a parallel pair of
`panel(3.25, 17.5)`. -/
theorem nonneg32_preserved_witness :
    (source32.serial [.panel (.fin 5.5) (.fin 18.5),
        .parallel [.panel (.fin 3.25) (.fin 17.5), .panel (.fin 3.25) (.fin 17.5)]]).leaves_nonneg ∧
    ((F32.le (.fin 0) (source32.serial [.panel (.fin 5.5) (.fin 18.5),
        .parallel [.panel (.fin 3.25) (.fin 17.5), .panel (.fin 3.25) (.fin 17.5)]]).current
        = true ∧
      F32.le (.fin 0) (source32.serial [.panel (.fin 5.5) (.fin 18.5),
        .parallel [.panel (.fin 3.25) (.fin 17.5), .panel (.fin 3.25) (.fin 17.5)]]).voltage
        = true) ∧
     ∀ u ∈ (source32.serial [.panel (.fin 5.5) (.fin 18.5),
        .parallel [.panel (.fin 3.25) (.fin 17.5), .panel (.fin 3.25) (.fin 17.5)]]).subsources,
      F32.le (.fin 0) u.current = true ∧ F32.le (.fin 0) u.voltage = true ∧
      (¬ inf_times_zero u → F32.le (.fin 0) (power32 u) = true) ∧
      (inf_times_zero u → power32 u = .nan)) :=
  have hl : (source32.serial [.panel (.fin 5.5) (.fin 18.5),
      .parallel [.panel (.fin 3.25) (.fin 17.5), .panel (.fin 3.25) (.fin 17.5)]]).leaves_nonneg := by
    simp only [source32.leaves_nonneg, leaves_nonneg_list32]
    refine ⟨⟨by decide!, by decide!⟩, ⟨⟨by decide!, by decide!⟩, ⟨by decide!, by decide!⟩,
      trivial⟩, trivial⟩
  ⟨hl, nonneg32_preserved _ hl⟩

/-- C20 (as stated, refuted): the parallel composite of `panel(1, 1)` followed by the
parallel composite of `panel(1, 1)`, `panel(16777216, 1)` has `current()` 16777216, and the
flattened parallel composite of `panel(1, 1)`, `panel(1, 1)`, `panel(16777216, 1)` has
`current()` 16777218. -/
theorem nested32_flatten_current_ne :
    (source32.parallel ([.panel (.fin 1) (.fin 1)]
        ++ [.parallel [.panel (.fin 1) (.fin 1), .panel (.fin 16777216) (.fin 1)]]
        ++ [])).current = .fin 16777216 ∧
    (source32.parallel ([.panel (.fin 1) (.fin 1)]
        ++ [.panel (.fin 1) (.fin 1), .panel (.fin 16777216) (.fin 1)]
        ++ [])).current = .fin 16777218 ∧
    (source32.parallel ([.panel (.fin 1) (.fin 1)]
        ++ [.parallel [.panel (.fin 1) (.fin 1), .panel (.fin 16777216) (.fin 1)]]
        ++ [])).current
      ≠ (source32.parallel ([.panel (.fin 1) (.fin 1)]
        ++ [.panel (.fin 1) (.fin 1), .panel (.fin 16777216) (.fin 1)]
        ++ [])).current := by
  refine ⟨by decide!, by decide!, by decide!⟩

/-- C20 (amended): for all lists `xs`, `ys`, `zs`, replacing a nested same-type composite of
`ys` by its children leaves the `voltage()` of a parallel composite and the `current()` of a
series composite unchanged; it leaves the `current()` of a parallel composite and the
`voltage()` of a series composite unchanged whenever no addition rounds, in the nested
composite, in the outer composite and in the flattened composite. -/
theorem nested32_flatten (xs ys zs : List source32) :
    ((source32.parallel (xs ++ [source32.parallel ys] ++ zs)).voltage
        = (source32.parallel (xs ++ ys ++ zs)).voltage ∧
     (source32.serial (xs ++ [source32.serial ys] ++ zs)).current
        = (source32.serial (xs ++ ys ++ zs)).current) ∧
    (exact_sums (ys.map source32.current) 0 →
      exact_sums ((xs ++ [source32.parallel ys] ++ zs).map source32.current) 0 →
      exact_sums ((xs ++ ys ++ zs).map source32.current) 0 →
      (source32.parallel (xs ++ [source32.parallel ys] ++ zs)).current
        = (source32.parallel (xs ++ ys ++ zs)).current) ∧
    (exact_sums (ys.map source32.voltage) 0 →
      exact_sums ((xs ++ [source32.serial ys] ++ zs).map source32.voltage) 0 →
      exact_sums ((xs ++ ys ++ zs).map source32.voltage) 0 →
      (source32.serial (xs ++ [source32.serial ys] ++ zs)).voltage
        = (source32.serial (xs ++ ys ++ zs)).voltage) := by
  refine ⟨⟨?_, ?_⟩, ?_, ?_⟩
  · rw [parallel_voltage32_eq, parallel_voltage32_eq]
    simp only [List.map_append, List.foldl_append, List.map_cons, List.map_nil,
      List.foldl_cons, List.foldl_nil]
    rw [parallel_voltage32_eq ys,
      foldl_std_min32_flatten (xs.map source32.voltage) (ys.map source32.voltage) _ (by simp)]
  · rw [serial_current32_eq, serial_current32_eq]
    simp only [List.map_append, List.foldl_append, List.map_cons, List.map_nil,
      List.foldl_cons, List.foldl_nil]
    rw [serial_current32_eq ys,
      foldl_std_min32_flatten (xs.map source32.current) (ys.map source32.current) _ (by simp)]
  · intro hy hn hf
    rw [parallel_current32_exact _ hn, parallel_current32_exact _ hf]
    simp only [List.map_append, List.map_cons, List.map_nil, List.sum_append, List.sum_cons,
      List.sum_nil, parallel_current32_exact ys hy, F32.val, add_zero]
  · intro hy hn hf
    rw [serial_voltage32_exact _ hn, serial_voltage32_exact _ hf]
    simp only [List.map_append, List.map_cons, List.map_nil, List.sum_append, List.sum_cons,
      List.sum_nil, serial_voltage32_exact ys hy, F32.val, add_zero]

/-- C20 (amended), at `xs` the single `panel(5.5, 18.5)`, `ys` two references to
`panel(3.25, 17.5)` and `zs` the single `panel(12.5, 17.5)`. -/
theorem nested32_flatten_witness :
    (exact_sums (List.map source32.current
        [.panel (.fin 3.25) (.fin 17.5), .panel (.fin 3.25) (.fin 17.5)]) 0 ∧
     exact_sums (List.map source32.current ([.panel (.fin 5.5) (.fin 18.5)]
        ++ [.parallel [.panel (.fin 3.25) (.fin 17.5), .panel (.fin 3.25) (.fin 17.5)]]
        ++ [.panel (.fin 12.5) (.fin 17.5)])) 0 ∧
     exact_sums (List.map source32.current ([.panel (.fin 5.5) (.fin 18.5)]
        ++ [.panel (.fin 3.25) (.fin 17.5), .panel (.fin 3.25) (.fin 17.5)]
        ++ [.panel (.fin 12.5) (.fin 17.5)])) 0) ∧
    (source32.parallel ([.panel (.fin 5.5) (.fin 18.5)]
        ++ [.parallel [.panel (.fin 3.25) (.fin 17.5), .panel (.fin 3.25) (.fin 17.5)]]
        ++ [.panel (.fin 12.5) (.fin 17.5)])).voltage
      = (source32.parallel ([.panel (.fin 5.5) (.fin 18.5)]
        ++ [.panel (.fin 3.25) (.fin 17.5), .panel (.fin 3.25) (.fin 17.5)]
        ++ [.panel (.fin 12.5) (.fin 17.5)])).voltage ∧
    (source32.parallel ([.panel (.fin 5.5) (.fin 18.5)]
        ++ [.parallel [.panel (.fin 3.25) (.fin 17.5), .panel (.fin 3.25) (.fin 17.5)]]
        ++ [.panel (.fin 12.5) (.fin 17.5)])).current
      = (source32.parallel ([.panel (.fin 5.5) (.fin 18.5)]
        ++ [.panel (.fin 3.25) (.fin 17.5), .panel (.fin 3.25) (.fin 17.5)]
        ++ [.panel (.fin 12.5) (.fin 17.5)])).current :=
  have hy : exact_sums (List.map source32.current
      [.panel (.fin 3.25) (.fin 17.5), .panel (.fin 3.25) (.fin 17.5)]) 0 :=
    ⟨trivial, by decide!, trivial, by decide!, trivial⟩
  have hn : exact_sums (List.map source32.current ([.panel (.fin 5.5) (.fin 18.5)]
      ++ [.parallel [.panel (.fin 3.25) (.fin 17.5), .panel (.fin 3.25) (.fin 17.5)]]
      ++ [.panel (.fin 12.5) (.fin 17.5)])) 0 :=
    ⟨trivial, by decide!, by decide!, by decide!, trivial, by decide!, trivial⟩
  have hf : exact_sums (List.map source32.current ([.panel (.fin 5.5) (.fin 18.5)]
      ++ [.panel (.fin 3.25) (.fin 17.5), .panel (.fin 3.25) (.fin 17.5)]
      ++ [.panel (.fin 12.5) (.fin 17.5)])) 0 :=
    ⟨trivial, by decide!, trivial, by decide!, trivial, by decide!, trivial, by decide!, trivial⟩
  ⟨⟨hy, hn, hf⟩, (nested32_flatten _ _ _).1.1, (nested32_flatten _ _ _).2.1 hy hn hf⟩

end Panels
